import Mathlib

/-!
# Lax DER signature parsing, the low-S check, x-only keys and the context guard
(`src/pubkey.cpp`)

A shallow embedding of `ecdsa_signature_parse_der_lax`, `CPubKey::CheckLowS`, the methods
of `XOnlyPubKey` and the constructor and destructor of `ECCVerifyHandle`.

* The input is a list of octets; the cursor `pos` and all lengths are natural numbers.
  Every value of type `size_t` the function computes is bounded by the input length
  (`parseFrame_bounds`) or by `2 ^ 24` (`decodeLength_lt`), so no `size_t` arithmetic wraps.
* Every memory access of the C code is checked: reading `input[pos]` outside the input,
  taking `inputlen - pos` with `pos > inputlen`, and writing outside `tmpsig` end the
  run with a `Fault` instead of a result.
* The primitives of libsecp256k1 are external to `pubkey.cpp`; they are a parameter
  (`Secp256k1`, `Secp256k1XOnly`), and `libsecp256k1` is a reference instance of the
  signature primitives.
* The counter `ECCVerifyHandle::refcount` is a 32-bit `int`: incrementing it at `intMax`
  or decrementing it at `intMin` ends the run with a fault, as a failed `assert` does.
-/

namespace PubKey

/-- One octet. -/
abbrev Byte := Fin 256

/-- The ways in which the C code could leave defined behaviour. -/
inductive Fault where
  | readOutOfBounds
  | sizeUnderflow
  | writeOutOfBounds
  deriving DecidableEq, Repr

deriving instance DecidableEq for Except

/-- The primitives of libsecp256k1 used by `pubkey.cpp`, over a context type `κ` and the
type `σ` of parsed signatures (`secp256k1_ecdsa_signature`).
`ecdsa_signature_parse_compact ctx input64` is the pair of the returned flag and the
signature object written; `ecdsa_signature_normalize ctx sig` is the returned flag (the
call in `CheckLowS` passes no output signature). -/
structure Secp256k1 (κ σ : Type) where
  ecdsa_signature_parse_compact : κ → List Byte → Bool × σ
  ecdsa_signature_normalize : κ → σ → Bool

/-- What `ecdsa_signature_parse_der_lax` leaves behind: the returned `int` (as a flag),
the signature object `*sig`, and the value of the local `overflow` at the return. -/
structure ParseResult (σ : Type) where
  ret : Bool
  sig : σ
  overflow : Bool
  deriving DecidableEq, Repr

/-- The cursor values fixed by lines 38-132: where the R and S values start and how long
they are declared to be. -/
structure Frame where
  rpos : Nat
  rlen : Nat
  spos : Nat
  slen : Nat
  deriving DecidableEq, Repr

/-- The read `input[pos]`. -/
def readByte (input : List Byte) (pos : Nat) : Except Fault Nat :=
  match input[pos]? with
  | some b => .ok b.val
  | none => .error .readOutOfBounds

/-- The subtraction `a - b` on `size_t`, which must not wrap. -/
def sizeSub (a b : Nat) : Except Fault Nat :=
  if b ≤ a then .ok (a - b) else .error .sizeUnderflow

/-- The store `buf[i] = b`. -/
def writeByte (buf : List Byte) (i : Nat) (b : Byte) : Except Fault (List Byte) :=
  if i < buf.length then .ok (buf.set i b) else .error .writeOutOfBounds

/-- The loop `while (len > 0 && input[pos] == 0) { pos++; len--; }` of lines 73-76,
112-115, 135-138 and 147-150; the result is the final `(pos, len)`. -/
def skipLeadingZeros (input : List Byte) : Nat → Nat → Except Fault (Nat × Nat)
  | pos, 0 => .ok (pos, 0)
  | pos, len + 1 =>
    match readByte input pos with
    | .error e => .error e
    | .ok b => if b = 0 then skipLeadingZeros input (pos + 1) len else .ok (pos, len + 1)

/-- The loop `while (lenbyte > 0) { len = (len << 8) + input[pos]; pos++; lenbyte--; }`
of lines 82-86 and 121-125; the result is the final `(pos, len)`. -/
def accumulateLength (input : List Byte) : Nat → Nat → Nat → Except Fault (Nat × Nat)
  | pos, 0, len => .ok (pos, len)
  | pos, lenbyte + 1, len =>
    match readByte input pos with
    | .error e => .error e
    | .ok b => accumulateLength input (pos + 1) lenbyte ((len <<< 8) + b)

/-- `memcpy(dst + doff, src + soff, n)`, one octet at a time. -/
def memcpy (dst : List Byte) (doff : Nat) (src : List Byte) (soff : Nat) :
    Nat → Except Fault (List Byte)
  | 0 => .ok dst
  | n + 1 =>
    match src[soff]? with
    | none => .error .readOutOfBounds
    | some b =>
      match writeByte dst doff b with
      | .error e => .error e
      | .ok dst1 => memcpy dst1 (doff + 1) src (soff + 1) n

/-- Lines 38-55: the sequence tag and the sequence length octets. `none` is `return 0`,
`some pos` the cursor behind the header. The length octets are skipped, not decoded. -/
def parseSequenceHeader (input : List Byte) : Except Fault (Option Nat) :=
  let inputlen := input.length
  let pos := 0
  if pos = inputlen then .ok none else
  match readByte input pos with
  | .error e => .error e
  | .ok tag =>
  if tag ≠ 0x30 then .ok none else
  let pos := pos + 1
  if pos = inputlen then .ok none else
  match readByte input pos with
  | .error e => .error e
  | .ok lenbyte =>
  let pos := pos + 1
  if lenbyte &&& 0x80 ≠ 0 then
    let lenbyte := lenbyte - 0x80
    match sizeSub inputlen pos with
    | .error e => .error e
    | .ok avail =>
    if lenbyte > avail then .ok none else
    .ok (some (pos + lenbyte))
  else .ok (some pos)

/-- Lines 57-92 for R and lines 96-131 for S (the same text): the integer tag, the
length field and the check that the declared length fits. `none` is `return 0`,
`some (pos, len)` the start and declared length of the value. -/
def parseIntegerHeader (input : List Byte) (pos : Nat) : Except Fault (Option (Nat × Nat)) :=
  let inputlen := input.length
  if pos = inputlen then .ok none else
  match readByte input pos with
  | .error e => .error e
  | .ok tag =>
  if tag ≠ 0x02 then .ok none else
  let pos := pos + 1
  if pos = inputlen then .ok none else
  match readByte input pos with
  | .error e => .error e
  | .ok lenbyte =>
  let pos := pos + 1
  if lenbyte &&& 0x80 ≠ 0 then
    let lenbyte := lenbyte - 0x80
    match sizeSub inputlen pos with
    | .error e => .error e
    | .ok avail =>
    if lenbyte > avail then .ok none else
    match skipLeadingZeros input pos lenbyte with
    | .error e => .error e
    | .ok (pos, lenbyte) =>
    if lenbyte ≥ 4 then .ok none else
    match accumulateLength input pos lenbyte 0 with
    | .error e => .error e
    | .ok (pos, len) =>
    match sizeSub inputlen pos with
    | .error e => .error e
    | .ok avail =>
    if len > avail then .ok none else .ok (some (pos, len))
  else
    let len := lenbyte
    match sizeSub inputlen pos with
    | .error e => .error e
    | .ok avail =>
    if len > avail then .ok none else .ok (some (pos, len))

/-- Lines 38-132: the framing. `none` is `return 0`. -/
def parseFrame (input : List Byte) : Except Fault (Option Frame) :=
  match parseSequenceHeader input with
  | .error e => .error e
  | .ok none => .ok none
  | .ok (some pos) =>
  match parseIntegerHeader input pos with
  | .error e => .error e
  | .ok none => .ok none
  | .ok (some (rpos, rlen)) =>
  let pos := rpos + rlen
  match parseIntegerHeader input pos with
  | .error e => .error e
  | .ok none => .ok none
  | .ok (some (spos, slen)) => .ok (some ⟨rpos, rlen, spos, slen⟩)

/-- Lines 134-144 for R (`fieldEnd = 32`) and 146-156 for S (`fieldEnd = 64`): skip the
leading zero octets of the value, then either flag the overflow or copy the value so that
it ends at `tmpsig + fieldEnd`. The result is the buffer and the overflow flag. -/
def copyValue (input : List Byte) (fieldEnd : Nat) (pos len : Nat)
    (tmpsig : List Byte) (overflow : Bool) : Except Fault (List Byte × Bool) :=
  match skipLeadingZeros input pos len with
  | .error e => .error e
  | .ok (pos, len) =>
  if len > 32 then .ok (tmpsig, true) else
  match sizeSub fieldEnd len with
  | .error e => .error e
  | .ok doff =>
  match memcpy tmpsig doff input pos len with
  | .error e => .error e
  | .ok tmpsig => .ok (tmpsig, overflow)

/-- Lines 134-156: both values copied into a zeroed `tmpsig[64]`, from `overflow = 0`. -/
def assemble (input : List Byte) (f : Frame) : Except Fault (List Byte × Bool) :=
  match copyValue input 32 f.rpos f.rlen (List.replicate 64 0) false with
  | .error e => .error e
  | .ok (tmpsig, overflow) => copyValue input 64 f.spos f.slen tmpsig overflow

/-- The function `ecdsa_signature_parse_der_lax` (lines 28-168). -/
def ecdsa_signature_parse_der_lax {κ σ : Type} (P : Secp256k1 κ σ) (ctx : κ)
    (input : List Byte) : Except Fault (ParseResult σ) :=
  let zero64 : List Byte := List.replicate 64 0
  /- Hack to initialize sig with a correctly-parsed but invalid signature. -/
  let sig := (P.ecdsa_signature_parse_compact ctx zero64).2
  match parseFrame input with
  | .error e => .error e
  | .ok none => .ok ⟨false, sig, false⟩
  | .ok (some f) =>
  match assemble input f with
  | .error e => .error e
  | .ok (tmpsig, overflow) =>
  let parsed := P.ecdsa_signature_parse_compact ctx tmpsig
  let sig := if !overflow then parsed.2 else sig
  let overflow := if !overflow then !parsed.1 else overflow
  let sig := if overflow then (P.ecdsa_signature_parse_compact ctx zero64).2 else sig
  .ok ⟨true, sig, overflow⟩

/-- The function `CPubKey::CheckLowS` (lines 203-210). The context handle is `none` when
null; `none` as a result is the failed assertion of line 205. -/
def CheckLowS {κ σ : Type} (P : Secp256k1 κ σ) (secp256k1_context_verify : Option κ)
    (vchSig : List Byte) : Except Fault (Option Bool) :=
  match secp256k1_context_verify with
  | none => .ok none
  | some ctx =>
  match ecdsa_signature_parse_der_lax P ctx vchSig with
  | .error e => .error e
  | .ok r =>
  if !r.ret then .ok (some false) else
  .ok (some (!P.ecdsa_signature_normalize ctx r.sig))

/-! ### The x-only key operations (lines 170-189) -/

/-- The x-only primitives of libsecp256k1 used by `pubkey.cpp`, over a context type `κ`
and the type `π` of parsed keys (`secp256k1_xonly_pubkey`). The context argument is the
global handle as it is, null (`none`) or not. `xonly_pubkey_parse ctx input32` is the pair
of the returned flag and the key written; `schnorrsig_verify ctx sig64 msg32 pubkey` and
`xonly_pubkey_tweak_add_check ctx tweaked_pubkey32 tweaked_pk_parity internal_pubkey
tweak32` are the returned flags. -/
structure Secp256k1XOnly (κ π : Type) where
  xonly_pubkey_parse : Option κ → List Byte → Bool × π
  schnorrsig_verify : Option κ → List Byte → List Byte → π → Bool
  xonly_pubkey_tweak_add_check : Option κ → List Byte → Bool → π → List Byte → Bool

/-- The class `XOnlyPubKey`: its only member is the 32 octets `m_keydata`. -/
structure XOnlyPubKey where
  m_keydata : List Byte
  deriving DecidableEq, Repr

/-- The constructor `XOnlyPubKey::XOnlyPubKey` (lines 170-174); `none` is the failed
assertion of line 172. -/
def XOnlyPubKey.fromBytes (bytes : List Byte) : Option XOnlyPubKey :=
  if bytes.length = 32 then some ⟨bytes⟩ else none

/-- The method `XOnlyPubKey::VerifySchnorr` (lines 176-182); `none` is the failed
assertion of line 178. -/
def XOnlyPubKey.VerifySchnorr {κ π : Type} (X : Secp256k1XOnly κ π)
    (secp256k1_context_verify : Option κ) (self : XOnlyPubKey) (msg : List Byte)
    (sigbytes : List Byte) : Option Bool :=
  if sigbytes.length ≠ 64 then none else
  let parsed := X.xonly_pubkey_parse secp256k1_context_verify self.m_keydata
  if !parsed.1 then some false else
  some (X.schnorrsig_verify secp256k1_context_verify sigbytes msg parsed.2)

/-- The method `XOnlyPubKey::CheckPayToContract` (lines 184-189). -/
def XOnlyPubKey.CheckPayToContract {κ π : Type} (X : Secp256k1XOnly κ π)
    (secp256k1_context_verify : Option κ) (self : XOnlyPubKey) (base : XOnlyPubKey)
    (hash : List Byte) (parity : Bool) : Bool :=
  let parsed := X.xonly_pubkey_parse secp256k1_context_verify base.m_keydata
  if !parsed.1 then false else
  X.xonly_pubkey_tweak_add_check secp256k1_context_verify self.m_keydata parity parsed.2 hash

/-! ### The context guard (lines 12-16 and 212-232) -/

/-- The process-wide state: the static `ECCVerifyHandle::refcount` and the global handle
`secp256k1_context_verify` (`none` is `nullptr`). -/
structure VerifyState (κ : Type) where
  refcount : Int
  secp256k1_context_verify : Option κ
  deriving DecidableEq, Repr

/-- The calls to the context management of libsecp256k1. -/
inductive ContextCall (κ : Type) where
  | create (handle : κ)
  | destroy (handle : κ)
  deriving DecidableEq, Repr

/-- The ways in which the guard could stop: a failed `assert`, or an overflow of the
`int` counter. -/
inductive GuardFault where
  | assertion
  | intOverflow
  deriving DecidableEq, Repr

/-- The largest value of the 32-bit `int` that `refcount` is. -/
def intMax : Int := 2147483647

/-- The smallest value of the 32-bit `int` that `refcount` is. -/
def intMin : Int := -2147483648

/-- The constructor `ECCVerifyHandle::ECCVerifyHandle` (lines 214-222).
`secp256k1_context_create` is what the library call of line 218 returns when it is made.
The result is the new state and the calls made to the library. -/
def ECCVerifyHandle.construct {κ : Type} (secp256k1_context_create : Option κ)
    (s : VerifyState κ) : Except GuardFault (VerifyState κ × List (ContextCall κ)) :=
  if s.refcount = 0 then
    if s.secp256k1_context_verify.isSome then .error .assertion else
    match secp256k1_context_create with
    | none => .error .assertion
    | some c =>
      if s.refcount = intMax then .error .intOverflow else
      .ok (⟨s.refcount + 1, some c⟩, [.create c])
  else
    if s.refcount = intMax then .error .intOverflow else
    .ok (⟨s.refcount + 1, s.secp256k1_context_verify⟩, [])

/-- The destructor `ECCVerifyHandle::~ECCVerifyHandle` (lines 224-232). The result is
the new state and the calls made to the library. -/
def ECCVerifyHandle.destruct {κ : Type} (s : VerifyState κ) :
    Except GuardFault (VerifyState κ × List (ContextCall κ)) :=
  if s.refcount = intMin then .error .intOverflow else
  let refcount := s.refcount - 1
  if refcount = 0 then
    match s.secp256k1_context_verify with
    | none => .error .assertion
    | some c => .ok (⟨refcount, none⟩, [.destroy c])
  else .ok (⟨refcount, s.secp256k1_context_verify⟩, [])

/-- A construction or a destruction of a guard. -/
inductive GuardOp where
  | construct
  | destruct
  deriving DecidableEq, Repr

/-- A sequence of constructions and destructions run from the state `s`; the result is
the final state and all the calls made to the library, in order. -/
def runGuards {κ : Type} (secp256k1_context_create : Option κ) :
    VerifyState κ → List GuardOp → Except GuardFault (VerifyState κ × List (ContextCall κ))
  | s, [] => .ok (s, [])
  | s, op :: ops =>
    match (match op with
      | .construct => ECCVerifyHandle.construct secp256k1_context_create s
      | .destruct => ECCVerifyHandle.destruct s) with
    | .error e => .error e
    | .ok (s1, calls1) =>
      match runGuards secp256k1_context_create s1 ops with
      | .error e => .error e
      | .ok (s2, calls2) => .ok (s2, calls1 ++ calls2)

/-! ### Values of octet strings and the reference primitives -/

/-- The unsigned big-endian value of an octet string. -/
def beValue (bs : List Byte) : Nat :=
  bs.foldl (fun acc b => acc * 256 + b.val) 0

/-- The `n` low octets of `v`, big-endian, zero-padded on the left. -/
def beBytes : Nat → Nat → List Byte
  | 0, _ => []
  | n + 1, v => beBytes n (v / 256) ++ [Fin.ofNat (v % 256)]

/-- The order of the secp256k1 group. -/
def groupOrder : Nat :=
  0xFFFFFFFFFFFFFFFFFFFFFFFFFFFFFFFEBAAEDCE6AF48A03BBFD25E8CD0364141

/-- The R half of a 64-octet compact signature, as a number. -/
def compactR (sig64 : List Byte) : Nat := beValue (sig64.take 32)

/-- The S half of a 64-octet compact signature, as a number. -/
def compactS (sig64 : List Byte) : Nat := beValue ((sig64.drop 32).take 32)

/-- Modelled from the spec: the external primitive library (libsecp256k1, which is not
part of `pubkey.cpp`). A parsed signature is kept as its 64 compact octets. The
compact-signature constructor accepts exactly when R and S are both below the group
order and then keeps the octets; on rejection it leaves the all-zero signature. The
normalization primitive reports a change exactly when S is above half the group order. -/
def libsecp256k1 : Secp256k1 Unit (List Byte) where
  ecdsa_signature_parse_compact := fun _ input64 =>
    if compactR input64 < groupOrder ∧ compactS input64 < groupOrder
    then (true, input64.take 64) else (false, List.replicate 64 0)
  ecdsa_signature_normalize := fun _ sig => decide (groupOrder / 2 < compactS sig)

/-! ### Descriptions of inputs and results

The definitions below are not code of `pubkey.cpp`: they describe octet strings, length
fields and results, and the theorems relate the embedded functions to them. -/

/-- The `len` octets of `input` from `pos` on. -/
def slice (input : List Byte) (pos len : Nat) : List Byte := (input.drop pos).take len

/-- An octet string without its leading zero octets. -/
def stripZeros (v : List Byte) : List Byte := v.dropWhile (fun b => b.val == 0)

/-- An octet string of at most 32 octets, right-aligned in 32 octets. -/
def padLeft32 (v : List Byte) : List Byte := List.replicate (32 - v.length) 0 ++ v

/-- The octets `lf` are exactly one length field that lines 63-89 accept, and it denotes
the returned length: one octet below `0x80`, or an octet `0x80 + c` followed by `c`
octets of which fewer than 4 remain once the leading zero octets are dropped. -/
def decodeLength : List Byte → Option Nat
  | [] => none
  | b :: lb =>
    if b.val < 128 then
      if lb.length = 0 then some b.val else none
    else
      if lb.length = b.val - 128 ∧ (stripZeros lb).length < 4
      then some (beValue (stripZeros lb)) else none

/-- The octets `sl` are exactly one sequence length field that lines 44-55 skip: one
octet below `0x80`, or an octet `0x80 + c` followed by `c` octets. -/
def isSequenceLength : List Byte → Bool
  | [] => false
  | b :: lb => if b.val < 128 then lb.length == 0 else lb.length == b.val - 128

/-- The octet string `30 sl 02 lr vr 02 ls vs t`. -/
def framed (sl lr vr ls vs t : List Byte) : List Byte :=
  0x30 :: (sl ++ 0x02 :: (lr ++ (vr ++ 0x02 :: (ls ++ (vs ++ t)))))

/-- The frame that lines 38-132 fix for an input `30 sl 02 lr vr 02 ls vs t`. -/
def frameOf (sl lr vr ls : List Byte) (vsLen : Nat) : Frame :=
  ⟨1 + sl.length + 1 + lr.length, vr.length,
   1 + sl.length + 1 + lr.length + vr.length + 1 + ls.length, vsLen⟩

/-- The canonical placeholder: the signature the compact-signature constructor leaves
for 64 zero octets. -/
def placeholder {κ σ : Type} (P : Secp256k1 κ σ) (ctx : κ) : σ :=
  (P.ecdsa_signature_parse_compact ctx (List.replicate 64 0)).2

/-- The result of lines 134-167 in terms of the raw R and S values `vr` and `vs`. -/
def resultOf {κ σ : Type} (P : Secp256k1 κ σ) (ctx : κ) (vr vs : List Byte) : ParseResult σ :=
  if 32 < (stripZeros vr).length ∨ 32 < (stripZeros vs).length then
    ⟨true, placeholder P ctx, true⟩
  else if (P.ecdsa_signature_parse_compact ctx
      (padLeft32 (stripZeros vr) ++ padLeft32 (stripZeros vs))).1 then
    ⟨true, (P.ecdsa_signature_parse_compact ctx
      (padLeft32 (stripZeros vr) ++ padLeft32 (stripZeros vs))).2, false⟩
  else ⟨true, placeholder P ctx, true⟩

/-- The contents octets of the strict DER encoding of a non-negative integer below
`2 ^ 256`: the minimal big-endian magnitude, with one `00` in front exactly when its top
bit is set; zero is the single octet `00`. -/
def derInteger (n : Nat) : List Byte :=
  match stripZeros (beBytes 32 n) with
  | [] => [0]
  | b :: m => if 128 ≤ b.val then 0 :: b :: m else b :: m

/-- The strict DER encoding of the pair `(R, S)`: `30 len 02 rlen R 02 slen S` with
short-form lengths. -/
def derSignature (R S : Nat) : List Byte :=
  0x30 :: Fin.ofNat (2 + (derInteger R).length + 2 + (derInteger S).length)
    :: (0x02 :: Fin.ofNat (derInteger R).length :: (derInteger R)
    ++ 0x02 :: Fin.ofNat (derInteger S).length :: (derInteger S))

/-- The bytes `30 06 02 01 01 02 01 01`. -/
def sigOneOne : List Byte := [0x30, 0x06, 0x02, 0x01, 0x01, 0x02, 0x01, 0x01]

/-- The bytes `30 0a 02 84 00 00 00 01 01 02 01 01`: the length field of R is long-form
with byte-count 4, three of the four length octets are zero. -/
def sigLongLength : List Byte :=
  [0x30, 0x0a, 0x02, 0x84, 0x00, 0x00, 0x00, 0x01, 0x01, 0x02, 0x01, 0x01]

/-- The bytes `30 26 02 21 00 ff..ff 02 01 01`: R has declared length 33 and is one `00`
followed by 32 octets `ff`; S is 1. -/
def sigHighR : List Byte :=
  [0x30, 0x26, 0x02, 0x21, 0x00] ++ List.replicate 32 0xff ++ [0x02, 0x01, 0x01]

/-- The bytes `30 85 01 02 03 04 05 02 01 01 02 01 01`: the sequence length is long-form
with byte-count 5. -/
def sigLongSequence : List Byte :=
  [0x30, 0x85, 0x01, 0x02, 0x03, 0x04, 0x05, 0x02, 0x01, 0x01, 0x02, 0x01, 0x01]

/-- The bytes `30 45 02 21 01..01 02 20 S` where R is 33 octets `01` and S is the group
order minus one, a scalar in the upper half. -/
def sigHighSLongR : List Byte :=
  [0x30, 0x45, 0x02, 0x21] ++ List.replicate 33 0x01 ++ [0x02, 0x20]
    ++ beBytes 32 (groupOrder - 1)

/-- The bytes `30 25 02 01 01 02 20 S` where R is 1 and S is the group order itself. -/
def sigOrderS : List Byte :=
  [0x30, 0x25, 0x02, 0x01, 0x01, 0x02, 0x20] ++ beBytes 32 groupOrder

/-- The bytes `30 25 02 01 01 02 20 S` where R is 1 and S is the group order minus one. -/
def sigHighS : List Byte :=
  [0x30, 0x25, 0x02, 0x01, 0x01, 0x02, 0x20] ++ beBytes 32 (groupOrder - 1)

/-- The number of live guards after the operations `ops`, from `n` live guards. -/
def liveGuards : Int → List GuardOp → Int
  | n, [] => n
  | n, .construct :: ops => liveGuards (n + 1) ops
  | n, .destruct :: ops => liveGuards (n - 1) ops

/-- No destruction in `ops` happens without a live guard, from `n` live guards. -/
def wellNested : Int → List GuardOp → Bool
  | _, [] => true
  | n, .construct :: ops => wellNested (n + 1) ops
  | n, .destruct :: ops => decide (0 < n) && wellNested (n - 1) ops

/-- At no time during `ops` are more than `intMax` guards live, from `n` live guards. -/
def withinInt : Int → List GuardOp → Bool
  | _, [] => true
  | n, .construct :: ops => decide (n < intMax) && withinInt (n + 1) ops
  | n, .destruct :: ops => withinInt (n - 1) ops

/-- The library calls expected of `ops`, from `n` live guards: a creation at every
construction with no live guard, a destruction of the handle `c` at every destruction of
the only live guard. -/
def expectedCalls {κ : Type} (c : κ) : Int → List GuardOp → List (ContextCall κ)
  | _, [] => []
  | n, .construct :: ops => (if n = 0 then [.create c] else []) ++ expectedCalls c (n + 1) ops
  | n, .destruct :: ops => (if n = 1 then [.destroy c] else []) ++ expectedCalls c (n - 1) ops

/-- A sample instance of the x-only primitives, to instantiate statements with; it is
not a model of the library. A key parses when its first octet is not `ff`; a signature
verifies when it is the message twice; the tweak check compares the keys and asks for
even parity. -/
def sampleXOnly : Secp256k1XOnly Unit (List Byte) where
  xonly_pubkey_parse := fun _ input32 => (decide (input32.head? ≠ some 0xff), input32)
  schnorrsig_verify := fun _ sig64 msg32 _ => decide (sig64 = msg32 ++ msg32)
  xonly_pubkey_tweak_add_check := fun _ tweaked parity internal _ =>
    decide (tweaked = internal) && !parity

/-! ### The loops -/

theorem getElem?_append_cons (pre post : List Byte) (b : Byte) :
    (pre ++ b :: post)[pre.length]? = some b := by
  rw [List.getElem?_append_right (le_refl _)]; simp

theorem take_set_succ (dst : List Byte) (doff : Nat) (b : Byte) (hd : doff < dst.length) :
    (dst.set doff b).take (doff + 1) = dst.take doff ++ [b] := by
  rw [List.set_eq_take_cons_drop b hd]
  have : (List.take doff dst).length = doff := by simp; omega
  rw [List.take_append_eq_append_take]
  simp [this]

theorem drop_set_gt (dst : List Byte) (doff n : Nat) (b : Byte) :
    (dst.set doff b).drop (doff + 1 + n) = dst.drop (doff + 1 + n) := by
  rw [List.drop_set]; simp; omega

theorem drop_append_append (a b c : List Byte) :
    (a ++ (b ++ c)).drop (a.length + b.length) = c := by
  rw [← List.append_assoc, ← List.length_append, List.drop_left]

theorem take_append_append (a b c : List Byte) :
    ((a ++ (b ++ c)).drop a.length).take b.length = b := by
  rw [List.drop_left, List.take_left]

theorem drop_append_of_length (a b : List Byte) (n : Nat) (h : a.length = n) :
    (a ++ b).drop n = b := by
  subst h; exact List.drop_left a b

theorem readByte_append (pre post : List Byte) (b : Byte) :
    readByte (pre ++ b :: post) pre.length = .ok b.val := by
  unfold readByte; rw [getElem?_append_cons]

theorem readByte_of_lt (input : List Byte) (pos : Nat) (h : pos < input.length) :
    readByte input pos = .ok (input.get ⟨pos, h⟩).val := by
  simp [readByte, List.getElem?_eq_getElem h]

theorem stripZeros_length_le (v : List Byte) : (stripZeros v).length ≤ v.length := by
  induction v with
  | nil => simp [stripZeros]
  | cons b v ih =>
    by_cases hb : b.val = 0
    · have : stripZeros (b :: v) = stripZeros v := by simp [stripZeros, List.dropWhile_cons, hb]
      rw [this]; simp; omega
    · have : stripZeros (b :: v) = b :: v := by simp [stripZeros, List.dropWhile_cons, hb]
      rw [this]

theorem stripZeros_eq (v : List Byte) :
    v = List.replicate (v.length - (stripZeros v).length) 0 ++ stripZeros v := by
  induction v with
  | nil => simp [stripZeros]
  | cons b v ih =>
    by_cases hb : b.val = 0
    · have h1 : stripZeros (b :: v) = stripZeros v := by simp [stripZeros, List.dropWhile_cons, hb]
      have h2 := stripZeros_length_le v
      have h3 : b = 0 := Fin.ext hb
      rw [h1]
      have : (b :: v).length - (stripZeros v).length = (v.length - (stripZeros v).length) + 1 := by
        simp; omega
      rw [this, List.replicate_succ, List.cons_append, ← ih, h3]
    · have h1 : stripZeros (b :: v) = b :: v := by simp [stripZeros, List.dropWhile_cons, hb]
      rw [h1]; simp

theorem stripZeros_head (v : List Byte) : (stripZeros v).head? ≠ some 0 := by
  induction v with
  | nil => simp [stripZeros]
  | cons b v ih =>
    by_cases hb : b.val = 0
    · have h1 : stripZeros (b :: v) = stripZeros v := by simp [stripZeros, List.dropWhile_cons, hb]
      rw [h1]; exact ih
    · have h1 : stripZeros (b :: v) = b :: v := by simp [stripZeros, List.dropWhile_cons, hb]
      rw [h1]; simp; intro h; exact hb (by rw [h]; rfl)

theorem stripZeros_cons_zero (b : Byte) (v : List Byte) (hb : b.val = 0) :
    stripZeros (b :: v) = stripZeros v := by
  simp [stripZeros, List.dropWhile_cons, hb]

theorem stripZeros_cons_ne (b : Byte) (v : List Byte) (hb : b.val ≠ 0) :
    stripZeros (b :: v) = b :: v := by
  simp [stripZeros, List.dropWhile_cons, hb]

theorem skipLeadingZeros_append (v pre post : List Byte) :
    skipLeadingZeros (pre ++ v ++ post) pre.length v.length
      = .ok (pre.length + (v.length - (stripZeros v).length), (stripZeros v).length) := by
  induction v generalizing pre with
  | nil => simp [skipLeadingZeros, stripZeros]
  | cons b v ih =>
    have hr : readByte (pre ++ (b :: v) ++ post) pre.length = .ok b.val := by
      rw [List.append_assoc, List.cons_append]; exact readByte_append pre (v ++ post) b
    rw [List.length_cons, skipLeadingZeros, hr]
    by_cases hb : b.val = 0
    · have h2 := stripZeros_length_le v
      have h3 := ih (pre ++ [b])
      have e : pre ++ [b] ++ v ++ post = pre ++ (b :: v) ++ post := by simp
      rw [e, List.length_append, List.length_singleton] at h3
      simp only [hb, if_true]
      rw [h3, stripZeros_cons_zero b v hb]
      congr 2; omega
    · simp only [hb, if_false]
      rw [stripZeros_cons_ne b v hb]
      simp

theorem beValue_append (u v : List Byte) :
    beValue (u ++ v) = beValue u * 256 ^ v.length + beValue v := by
  induction v using List.reverseRecOn with
  | nil => simp [beValue]
  | append_singleton v b ih =>
    rw [← List.append_assoc]
    simp only [beValue, List.foldl_append, List.foldl_cons, List.foldl_nil, List.length_append,
      List.length_singleton] at ih ⊢
    rw [ih, pow_succ]; ring

theorem beValue_cons (b : Byte) (v : List Byte) :
    beValue (b :: v) = b.val * 256 ^ v.length + beValue v := by
  have := beValue_append [b] v
  simpa [beValue] using this

theorem beValue_lt (v : List Byte) : beValue v < 256 ^ v.length := by
  induction v with
  | nil => simp [beValue]
  | cons b v ih =>
    rw [beValue_cons, List.length_cons, pow_succ]
    have := b.isLt
    nlinarith

/-- A length that lines 63-89 decode is below `2 ^ 24`. -/
theorem decodeLength_lt (lf : List Byte) (L : Nat) (h : decodeLength lf = some L) :
    L < 2 ^ 24 := by
  cases lf with
  | nil => simp [decodeLength] at h
  | cons b lb =>
    by_cases hb : b.val < 128
    · simp only [decodeLength, hb, if_true] at h
      by_cases hlb : lb.length = 0
      · simp only [hlb, if_true, Option.some.injEq] at h
        omega
      · simp [hlb] at h
    · simp only [decodeLength, hb, if_false] at h
      by_cases hc : lb.length = b.val - 128 ∧ (stripZeros lb).length < 4
      · simp only [hc, and_self, if_true, Option.some.injEq] at h
        have h1 := beValue_lt (stripZeros lb)
        have h2 : 256 ^ (stripZeros lb).length ≤ 256 ^ 3 :=
          Nat.pow_le_pow_right (by norm_num) (by omega)
        rw [← h]
        have : (256 : Nat) ^ 3 = 2 ^ 24 := by norm_num
        omega
      · simp [hc] at h

theorem accumulateLength_append (v pre post : List Byte) (acc : Nat) :
    accumulateLength (pre ++ v ++ post) pre.length v.length acc
      = .ok (pre.length + v.length, acc * 256 ^ v.length + beValue v) := by
  induction v generalizing pre acc with
  | nil => simp [accumulateLength, beValue]
  | cons b v ih =>
    have hr : readByte (pre ++ (b :: v) ++ post) pre.length = .ok b.val := by
      rw [List.append_assoc, List.cons_append]; exact readByte_append pre (v ++ post) b
    have h3 := ih (pre ++ [b]) ((acc <<< 8) + b.val)
    have e : pre ++ [b] ++ v ++ post = pre ++ (b :: v) ++ post := by simp
    rw [e, List.length_append, List.length_singleton] at h3
    rw [List.length_cons, accumulateLength, hr]
    show accumulateLength (pre ++ (b :: v) ++ post) (pre.length + 1) v.length ((acc <<< 8) + b.val) = _
    rw [h3, beValue_cons, Nat.shiftLeft_eq, pow_succ]
    congr 2
    · omega
    · ring

theorem memcpy_append (v pre post dst : List Byte) (doff : Nat)
    (h : doff + v.length ≤ dst.length) :
    memcpy dst doff (pre ++ v ++ post) pre.length v.length
      = .ok (dst.take doff ++ v ++ dst.drop (doff + v.length)) := by
  induction v generalizing pre dst doff with
  | nil => simp [memcpy]
  | cons b v ih =>
    have hr : (pre ++ (b :: v) ++ post)[pre.length]? = some b := by
      rw [List.append_assoc, List.cons_append]; exact getElem?_append_cons _ _ _
    simp only [List.length_cons] at h
    have hd : doff < dst.length := by omega
    have hw : writeByte dst doff b = .ok (dst.set doff b) := by
      simp [writeByte, hd]
    have h3 := ih (pre ++ [b]) (dst.set doff b) (doff + 1) (by simp; omega)
    have e : pre ++ [b] ++ v ++ post = pre ++ (b :: v) ++ post := by simp
    rw [e, List.length_append, List.length_singleton] at h3
    rw [List.length_cons, memcpy, hr]
    simp only [hw]
    rw [h3, take_set_succ dst doff b hd, drop_set_gt]
    simp only [List.append_assoc, List.singleton_append, List.cons_append]
    have e2 : doff + 1 + v.length = doff + (v.length + 1) := by omega
    rw [e2]; simp

/-! ### The headers -/

theorem highBit_iff (b : Byte) : b.val &&& 0x80 ≠ 0 ↔ 128 ≤ b.val := by
  revert b; decide!

theorem sizeSub_of_le (a b : Nat) (h : b ≤ a) : sizeSub a b = .ok (a - b) := by
  simp [sizeSub, h]

theorem parseIntegerHeader_long (pre lb rest : List Byte) (b : Byte)
    (hb : 128 ≤ b.val) (hc : lb.length = b.val - 128) :
    parseIntegerHeader (pre ++ 2 :: b :: (lb ++ rest)) pre.length
      = .ok (if (stripZeros lb).length ≥ 4 then none else
             if beValue (stripZeros lb) > rest.length then none
             else some (pre.length + 2 + lb.length, beValue (stripZeros lb))) := by
  have hlen : (pre ++ 2 :: b :: (lb ++ rest)).length = pre.length + 2 + lb.length + rest.length := by
    simp; omega
  have hr0 : readByte (pre ++ 2 :: b :: (lb ++ rest)) pre.length = .ok 2 :=
    readByte_append pre _ 2
  have hr1 : readByte (pre ++ 2 :: b :: (lb ++ rest)) (pre.length + 1) = .ok b.val := by
    have := readByte_append (pre ++ [2]) (lb ++ rest) b
    simpa using this
  have hbit := (highBit_iff b).2 hb
  have hsub : sizeSub (pre ++ 2 :: b :: (lb ++ rest)).length (pre.length + 1 + 1)
      = .ok (lb.length + rest.length) := by
    rw [hlen, sizeSub_of_le _ _ (by omega)]
    have : pre.length + 2 + lb.length + rest.length - (pre.length + 1 + 1)
        = lb.length + rest.length := by omega
    rw [this]
  have e1 : pre ++ 2 :: b :: (lb ++ rest) = (pre ++ [2, b]) ++ lb ++ rest := by simp
  have hskip : skipLeadingZeros (pre ++ 2 :: b :: (lb ++ rest)) (pre.length + 1 + 1) (b.val - 128)
      = .ok (pre.length + 2 + (lb.length - (stripZeros lb).length), (stripZeros lb).length) := by
    have := skipLeadingZeros_append lb (pre ++ [2, b]) rest
    rw [← e1] at this
    rw [← hc]
    simpa using this
  have hz := stripZeros_eq lb
  have hle := stripZeros_length_le lb
  have e2 : pre ++ 2 :: b :: (lb ++ rest)
      = (pre ++ [2, b] ++ List.replicate (lb.length - (stripZeros lb).length) 0)
          ++ stripZeros lb ++ rest := by
    conv_lhs => rw [hz]
    simp
  have hacc : accumulateLength (pre ++ 2 :: b :: (lb ++ rest))
      (pre.length + 2 + (lb.length - (stripZeros lb).length)) (stripZeros lb).length 0
      = .ok (pre.length + 2 + lb.length, beValue (stripZeros lb)) := by
    have := accumulateLength_append (stripZeros lb)
      (pre ++ [2, b] ++ List.replicate (lb.length - (stripZeros lb).length) 0) rest 0
    rw [← e2] at this
    simp only [List.length_append, List.length_cons, List.length_singleton, List.length_nil,
      List.length_replicate, zero_mul, zero_add] at this
    have e3 : pre.length + (1 + 1) + (lb.length - (stripZeros lb).length) + (stripZeros lb).length
        = pre.length + 2 + lb.length := by omega
    rw [e3] at this
    exact this
  have hsub2 : sizeSub (pre ++ 2 :: b :: (lb ++ rest)).length (pre.length + 2 + lb.length)
      = .ok rest.length := by
    rw [hlen, sizeSub_of_le _ _ (by omega)]
    have : pre.length + 2 + lb.length + rest.length - (pre.length + 2 + lb.length)
        = rest.length := by omega
    rw [this]
  unfold parseIntegerHeader
  simp only [hr0, hr1, hsub, hskip, hacc, hsub2]
  have hne0 : ¬ (pre.length = (pre ++ 2 :: b :: (lb ++ rest)).length) := by rw [hlen]; omega
  have hne1 : ¬ (pre.length + 1 = (pre ++ 2 :: b :: (lb ++ rest)).length) := by rw [hlen]; omega
  have hcle : ¬ (b.val - 128 > lb.length + rest.length) := by omega
  simp only [hne0, hne1, hbit, hcle, if_true, if_false, ne_eq, not_true_eq_false,
    not_false_eq_true]
  by_cases h4 : (stripZeros lb).length ≥ 4
  · simp only [h4, if_true]
  · simp only [h4, if_false]
    by_cases hL : beValue (stripZeros lb) > rest.length
    · simp only [hL, if_true]
    · simp only [hL, if_false]

theorem parseIntegerHeader_short (pre tail : List Byte) (b : Byte) (hb : b.val < 128) :
    parseIntegerHeader (pre ++ 2 :: b :: tail) pre.length
      = .ok (if b.val > tail.length then none else some (pre.length + 2, b.val)) := by
  have hlen : (pre ++ 2 :: b :: tail).length = pre.length + 2 + tail.length := by
    simp; omega
  have hr0 : readByte (pre ++ 2 :: b :: tail) pre.length = .ok 2 :=
    readByte_append pre _ 2
  have hr1 : readByte (pre ++ 2 :: b :: tail) (pre.length + 1) = .ok b.val := by
    have := readByte_append (pre ++ [2]) tail b
    simpa using this
  have hbit : ¬ (b.val &&& 0x80 ≠ 0) := by rw [highBit_iff]; omega
  have hsub : sizeSub (pre ++ 2 :: b :: tail).length (pre.length + 1 + 1) = .ok tail.length := by
    rw [hlen, sizeSub_of_le _ _ (by omega)]
    have : pre.length + 2 + tail.length - (pre.length + 1 + 1) = tail.length := by omega
    rw [this]
  have hne0 : ¬ (pre.length = (pre ++ 2 :: b :: tail).length) := by rw [hlen]; omega
  have hne1 : ¬ (pre.length + 1 = (pre ++ 2 :: b :: tail).length) := by rw [hlen]; omega
  unfold parseIntegerHeader
  simp only [hr0, hr1, hsub]
  simp only [hne0, hne1, hbit, if_true, if_false, ne_eq, not_true_eq_false,
    not_false_eq_true]
  by_cases hL : b.val > tail.length
  · simp only [hL, if_true]
  · simp only [hL, if_false]

theorem parseIntegerHeader_end (pre : List Byte) :
    parseIntegerHeader pre pre.length = .ok none := by
  simp [parseIntegerHeader]

theorem parseIntegerHeader_single (pre : List Byte) (t : Byte) :
    parseIntegerHeader (pre ++ [t]) pre.length = .ok none := by
  have hr0 : readByte (pre ++ [t]) pre.length = .ok t.val := readByte_append pre [] t
  unfold parseIntegerHeader
  simp only [hr0]
  simp

theorem parseIntegerHeader_tag (pre tail : List Byte) (t : Byte) (ht : t.val ≠ 2) :
    parseIntegerHeader (pre ++ t :: tail) pre.length = .ok none := by
  have hr0 : readByte (pre ++ t :: tail) pre.length = .ok t.val := readByte_append pre tail t
  unfold parseIntegerHeader
  simp only [hr0]
  simp [ht]

theorem parseIntegerHeader_truncated (pre tail : List Byte) (b : Byte)
    (hb : 128 ≤ b.val) (hc : tail.length < b.val - 128) :
    parseIntegerHeader (pre ++ 2 :: b :: tail) pre.length = .ok none := by
  have hlen : (pre ++ 2 :: b :: tail).length = pre.length + 2 + tail.length := by
    simp; omega
  have hr0 : readByte (pre ++ 2 :: b :: tail) pre.length = .ok 2 :=
    readByte_append pre _ 2
  have hr1 : readByte (pre ++ 2 :: b :: tail) (pre.length + 1) = .ok b.val := by
    have := readByte_append (pre ++ [2]) tail b
    simpa using this
  have hbit := (highBit_iff b).2 hb
  have hsub : sizeSub (pre ++ 2 :: b :: tail).length (pre.length + 1 + 1) = .ok tail.length := by
    rw [hlen, sizeSub_of_le _ _ (by omega)]
    have : pre.length + 2 + tail.length - (pre.length + 1 + 1) = tail.length := by omega
    rw [this]
  have hne0 : ¬ (pre.length = (pre ++ 2 :: b :: tail).length) := by rw [hlen]; omega
  have hne1 : ¬ (pre.length + 1 = (pre ++ 2 :: b :: tail).length) := by rw [hlen]; omega
  have hgt : b.val - 128 > tail.length := hc
  unfold parseIntegerHeader
  simp only [hr0, hr1, hsub]
  simp only [hne0, hne1, hbit, hgt, if_true, if_false, ne_eq, not_true_eq_false,
    not_false_eq_true]

theorem parseIntegerHeader_beyond (input : List Byte) (pos : Nat) (h : input.length < pos) :
    parseIntegerHeader input pos = .error .readOutOfBounds := by
  have hr : readByte input pos = .error .readOutOfBounds := by
    unfold readByte
    rw [List.getElem?_eq_none (by omega)]
  have hne : ¬ (pos = input.length) := by omega
  unfold parseIntegerHeader
  simp only [hr, hne, if_false]

/-- A length field decoded by `decodeLength`, followed by enough octets, is read by the
integer header of lines 57-92 as that length. -/
theorem parseIntegerHeader_decode (pre lf rest : List Byte) (L : Nat)
    (hlf : decodeLength lf = some L) (hL : L ≤ rest.length) :
    parseIntegerHeader (pre ++ 2 :: (lf ++ rest)) pre.length
      = .ok (some (pre.length + 1 + lf.length, L)) := by
  cases lf with
  | nil => simp [decodeLength] at hlf
  | cons b lb =>
    by_cases hb : b.val < 128
    · simp only [decodeLength, hb, if_true] at hlf
      by_cases hlb : lb.length = 0
      · simp only [hlb, if_true, Option.some.injEq] at hlf
        have : lb = [] := List.length_eq_zero.mp hlb
        subst this
        have := parseIntegerHeader_short pre rest b hb
        simp only [List.cons_append, List.nil_append, List.length_singleton]
        rw [this]
        have hn : ¬ (b.val > rest.length) := by omega
        simp only [hn, if_false]
        rw [hlf]
      · simp [hlb] at hlf
    · simp only [decodeLength, hb, if_false] at hlf
      by_cases hc : lb.length = b.val - 128 ∧ (stripZeros lb).length < 4
      · simp only [hc, and_self, if_true, Option.some.injEq] at hlf
        have := parseIntegerHeader_long pre lb rest b (by omega) hc.1
        simp only [List.cons_append, List.length_cons]
        rw [this]
        have h4 : ¬ ((stripZeros lb).length ≥ 4) := by omega
        have hn : ¬ (beValue (stripZeros lb) > rest.length) := by omega
        simp only [h4, hn, if_false]
        rw [hlf]
        have : pre.length + 2 + lb.length = pre.length + 1 + (lb.length + 1) := by omega
        rw [this]
      · simp [hc] at hlf

/-- Every run of the integer header from a cursor inside the input ends without a fault,
and when it does not return 0 the header is a tag `02` and a length field that
`decodeLength` decodes, with the value inside the input. -/
theorem parseIntegerHeader_cases (input : List Byte) (pos : Nat) (hpos : pos ≤ input.length) :
    parseIntegerHeader input pos = .ok none ∨
    ∃ lf L, decodeLength lf = some L ∧
      input = input.take pos ++ 2 :: (lf ++ input.drop (pos + 1 + lf.length)) ∧
      pos + 1 + lf.length + L ≤ input.length ∧
      parseIntegerHeader input pos = .ok (some (pos + 1 + lf.length, L)) := by
  have hsplit : input = input.take pos ++ input.drop pos := (List.take_append_drop pos input).symm
  have hpre : (input.take pos).length = pos := by simp; omega
  generalize input.take pos = pre at hsplit hpre
  generalize htl : input.drop pos = tl at hsplit
  subst hpre
  match tl, hsplit with
  | [], hsplit =>
    left; rw [hsplit, List.append_nil]; exact parseIntegerHeader_end pre
  | [t], hsplit =>
    left; rw [hsplit]; exact parseIntegerHeader_single pre t
  | t :: b :: tail, hsplit =>
    by_cases ht : t.val = 2
    · have ht2 : t = 2 := Fin.ext ht
      subst ht2
      by_cases hb : b.val < 128
      · have hs := parseIntegerHeader_short pre tail b hb
        by_cases hL : b.val > tail.length
        · left; rw [hsplit, hs]; simp only [hL, if_true]
        · right
          refine ⟨[b], b.val, by simp [decodeLength, hb], ?_, ?_, ?_⟩
          · rw [hsplit]
            have := drop_append_append pre [2, b] tail
            simp only [List.length_cons, List.length_nil, List.cons_append, List.nil_append,
              zero_add] at this
            have e : pre.length + 1 + [b].length = pre.length + (1 + 1) := by simp
            rw [e, this]; rfl
          · rw [hsplit]; simp; omega
          · rw [hsplit, hs]; simp only [hL, if_false]; simp
      · by_cases hc : tail.length < b.val - 128
        · left; rw [hsplit]; exact parseIntegerHeader_truncated pre tail b (by omega) hc
        · have hlb : (tail.take (b.val - 128)).length = b.val - 128 := by simp; omega
          have htail : tail = tail.take (b.val - 128) ++ tail.drop (b.val - 128) :=
            (List.take_append_drop _ _).symm
          generalize tail.take (b.val - 128) = lb at hlb htail
          generalize tail.drop (b.val - 128) = rest at htail
          subst htail
          have hs := parseIntegerHeader_long pre lb rest b (by omega) hlb
          by_cases h4 : (stripZeros lb).length ≥ 4
          · left; rw [hsplit, hs]; simp only [h4, if_true]
          · by_cases hL : beValue (stripZeros lb) > rest.length
            · left; rw [hsplit, hs]; simp only [h4, hL, if_true, if_false]
            · right
              refine ⟨b :: lb, beValue (stripZeros lb), ?_, ?_, ?_, ?_⟩
              · simp only [decodeLength, hb, if_false]
                have : lb.length = b.val - 128 ∧ (stripZeros lb).length < 4 := ⟨hlb, by omega⟩
                simp only [this, and_self, if_true]
              · rw [hsplit]
                have := drop_append_append pre (2 :: b :: lb) rest
                simp only [List.length_cons, List.cons_append] at this
                have e : pre.length + 1 + (b :: lb).length = pre.length + (lb.length + 1 + 1) := by
                  simp; omega
                rw [e, this]; rfl
              · rw [hsplit]; simp; omega
              · rw [hsplit, hs]; simp only [h4, hL, if_false]
                have : pre.length + 2 + lb.length = pre.length + 1 + (b :: lb).length := by
                  simp; omega
                rw [this]
    · left; rw [hsplit]; exact parseIntegerHeader_tag pre _ t ht

theorem parseSequenceHeader_cons (t b : Byte) (tail : List Byte) :
    parseSequenceHeader (t :: b :: tail)
      = .ok (if t.val ≠ 0x30 then none else
             if b.val < 128 then some 2 else
             if b.val - 128 > tail.length then none else some (2 + (b.val - 128))) := by
  have hr0 : readByte (t :: b :: tail) 0 = .ok t.val := by simp [readByte]
  have hr1 : readByte (t :: b :: tail) (0 + 1) = .ok b.val := by simp [readByte]
  have hsub : sizeSub (t :: b :: tail).length (0 + 1 + 1) = .ok tail.length := by
    rw [sizeSub_of_le _ _ (by simp)]; simp
  have hne0 : ¬ (0 = (t :: b :: tail).length) := by simp
  have hne1 : ¬ (0 + 1 = (t :: b :: tail).length) := by simp
  unfold parseSequenceHeader
  simp only [hr0, hr1, hsub, hne0, hne1, if_false]
  by_cases ht : t.val = 0x30
  · simp only [ht, ne_eq, not_true_eq_false, if_false]
    by_cases hb : b.val < 128
    · have hbit : ¬ (b.val &&& 0x80 ≠ 0) := by rw [highBit_iff]; omega
      simp only [hb, if_true]
      simp only [ne_eq] at hbit
      simp only [hbit, if_false]
    · have hbit := (highBit_iff b).2 (by omega)
      simp only [hb, if_false]
      simp only [ne_eq] at hbit
      simp only [hbit, not_false_eq_true, if_true]
      by_cases hc : b.val - 128 > tail.length
      · simp only [hc, if_true]
      · simp only [hc, if_false]
  · simp only [ht, ne_eq, not_false_eq_true, if_true]

/-- A sequence length field is skipped as a whole. -/
theorem parseSequenceHeader_decode (sl rest : List Byte) (hsl : isSequenceLength sl = true) :
    parseSequenceHeader (0x30 :: (sl ++ rest)) = .ok (some (1 + sl.length)) := by
  cases sl with
  | nil => simp [isSequenceLength] at hsl
  | cons b lb =>
    rw [List.cons_append, parseSequenceHeader_cons]
    have h30 : ((0x30 : Byte).val ≠ 0x30) = False := by
      have : (0x30 : Byte).val = 0x30 := rfl
      simp [this]
    simp only [h30, if_false]
    by_cases hb : b.val < 128
    · simp only [isSequenceLength, hb, if_true, beq_iff_eq] at hsl
      simp only [hb, if_true, List.length_cons, hsl]
    · simp only [isSequenceLength, hb, if_false, beq_iff_eq] at hsl
      have hc : ¬ (b.val - 128 > (lb ++ rest).length) := by simp; omega
      simp only [hb, hc, if_false, List.length_cons]
      have : 2 + (b.val - 128) = 1 + (lb.length + 1) := by omega
      rw [this]

/-- The sequence header never faults, and when it does not return 0 the input starts with
`30` and a sequence length field. -/
theorem parseSequenceHeader_cases (input : List Byte) :
    parseSequenceHeader input = .ok none ∨
    ∃ sl, isSequenceLength sl = true ∧
      input = 0x30 :: (sl ++ input.drop (1 + sl.length)) ∧
      1 + sl.length ≤ input.length ∧
      parseSequenceHeader input = .ok (some (1 + sl.length)) := by
  match input with
  | [] => left; simp [parseSequenceHeader]
  | [t] =>
    left
    have hr0 : readByte [t] 0 = .ok t.val := by simp [readByte]
    unfold parseSequenceHeader
    simp only [hr0]
    simp
  | t :: b :: tail =>
    rw [parseSequenceHeader_cons]
    by_cases ht : t.val = 0x30
    · have ht2 : t = 0x30 := Fin.ext ht
      subst ht2
      simp only [ht, ne_eq, not_true_eq_false, if_false]
      by_cases hb : b.val < 128
      · right
        refine ⟨[b], by simp [isSequenceLength, hb], by simp, by simp, ?_⟩
        simp only [hb, if_true]; rfl
      · by_cases hc : b.val - 128 > tail.length
        · left; simp only [hb, hc, if_true, if_false]
        · right
          have hlen : (tail.take (b.val - 128)).length = b.val - 128 := by simp; omega
          refine ⟨b :: tail.take (b.val - 128), ?_, ?_, ?_, ?_⟩
          · simp [isSequenceLength, hb]; omega
          · have e : 1 + (b :: tail.take (b.val - 128)).length
                = ([0x30, b] : List Byte).length + (tail.take (b.val - 128)).length := by
              simp; omega
            have := drop_append_append [0x30, b] (tail.take (b.val - 128))
              (tail.drop (b.val - 128))
            rw [List.take_append_drop] at this
            rw [e]
            simp only [List.cons_append, List.nil_append] at this
            rw [this, List.cons_append, List.take_append_drop]
          · simp only [List.length_cons, hlen]; omega
          · simp only [hb, hc, if_false, List.length_cons, hlen]
            have : 2 + (b.val - 128) = 1 + (b.val - 128 + 1) := by omega
            rw [this]
    · left; simp only [ht, ne_eq, not_false_eq_true, if_true]

/-- The integer header at the end of `pre`: either it returns 0, or what follows `pre`
is a tag `02`, a length field `lf`, the value `v` it announces and further octets `t`. -/
theorem parseIntegerHeader_cases_append (pre rest : List Byte) :
    parseIntegerHeader (pre ++ rest) pre.length = .ok none ∨
    ∃ lf v t, decodeLength lf = some v.length ∧ rest = 2 :: (lf ++ (v ++ t)) ∧
      parseIntegerHeader (pre ++ rest) pre.length = .ok (some (pre.length + 1 + lf.length, v.length)) := by
  rcases parseIntegerHeader_cases (pre ++ rest) pre.length (by simp) with h | ⟨lf, L, hlf, he, hle, hp⟩
  · left; exact h
  · right
    rw [List.take_left] at he
    have hrest := List.append_cancel_left he
    generalize hD : List.drop (pre.length + 1 + lf.length) (pre ++ rest) = D at hrest
    have hDlen : L ≤ D.length := by
      have h1 : rest.length = 1 + (lf.length + D.length) := by rw [hrest]; simp; omega
      simp only [List.length_append] at hle
      omega
    refine ⟨lf, D.take L, D.drop L, ?_, ?_, ?_⟩
    · rw [hlf]; simp; omega
    · rw [List.take_append_drop]; exact hrest
    · rw [hp]; simp; omega

/-- Completeness of the framing: an input `30 sl 02 lr vr 02 ls vs t` whose length
fields decode to the lengths of the values is framed as such. -/
theorem parseFrame_framed (sl lr vr ls vs t : List Byte)
    (hsl : isSequenceLength sl = true)
    (hlr : decodeLength lr = some vr.length) (hls : decodeLength ls = some vs.length) :
    parseFrame (framed sl lr vr ls vs t) = .ok (some (frameOf sl lr vr ls vs.length)) := by
  have h1 := parseSequenceHeader_decode sl (2 :: (lr ++ (vr ++ 2 :: (ls ++ (vs ++ t))))) hsl
  have h2 := parseIntegerHeader_decode (0x30 :: sl) lr (vr ++ 2 :: (ls ++ (vs ++ t))) vr.length
    hlr (by simp)
  have h3 := parseIntegerHeader_decode (0x30 :: (sl ++ 2 :: (lr ++ vr))) ls (vs ++ t) vs.length
    hls (by simp)
  have e2 : (0x30 :: sl : List Byte).length = 1 + sl.length := by simp; omega
  have e3 : (0x30 :: (sl ++ 2 :: (lr ++ vr)) : List Byte).length
      = 1 + sl.length + 1 + lr.length + vr.length := by simp; omega
  have e3b : (0x30 :: (sl ++ 2 :: (lr ++ vr)) : List Byte) ++ 2 :: (ls ++ (vs ++ t))
      = framed sl lr vr ls vs t := by simp [framed]
  rw [e2] at h2
  rw [e3, e3b] at h3
  unfold parseFrame
  unfold framed at h3 ⊢
  simp only [List.cons_append] at h2
  simp only [h1, h2, h3, frameOf]

/-- Soundness of the framing: an input on which lines 38-132 do not return 0 is of the
form `30 sl 02 lr vr 02 ls vs t`; and the framing never faults. -/
theorem parseFrame_cases (input : List Byte) :
    parseFrame input = .ok none ∨
    ∃ sl lr vr ls vs t, isSequenceLength sl = true ∧
      decodeLength lr = some vr.length ∧ decodeLength ls = some vs.length ∧
      input = framed sl lr vr ls vs t := by
  rcases parseSequenceHeader_cases input with h | ⟨sl, hsl, he, hle, hp⟩
  · left; unfold parseFrame; simp only [h]
  · generalize List.drop (1 + sl.length) input = r1 at he
    subst he
    have e2 : (0x30 :: sl : List Byte).length = 1 + sl.length := by simp; omega
    rcases parseIntegerHeader_cases_append (0x30 :: sl) r1 with h | ⟨lr, vr, r3, hlr, he, hp2⟩
    · left
      rw [e2] at h
      simp only [List.cons_append] at h
      unfold parseFrame; simp only [hp, h]
    · subst he
      have e3 : (0x30 :: (sl ++ 2 :: (lr ++ vr)) : List Byte).length
          = 1 + sl.length + 1 + lr.length + vr.length := by simp; omega
      have e3b : ∀ r, (0x30 :: (sl ++ 2 :: (lr ++ vr)) : List Byte) ++ r
          = 0x30 :: (sl ++ 2 :: (lr ++ (vr ++ r))) := by intro r; simp
      rw [e2] at hp2
      simp only [List.cons_append] at hp2
      rcases parseIntegerHeader_cases_append (0x30 :: (sl ++ 2 :: (lr ++ vr))) r3
        with h | ⟨ls, vs, t, hls, he, _⟩
      · left
        rw [e3, e3b] at h
        unfold parseFrame; simp only [hp, hp2, h]
      · right
        subst he
        exact ⟨sl, lr, vr, ls, vs, t, hsl, hlr, hls, rfl⟩

/-! ### The copies into `tmpsig` -/

theorem copyValue_append (pre v post tmpsig : List Byte) (fieldEnd : Nat) (overflow : Bool)
    (h32 : 32 ≤ fieldEnd) (hbuf : fieldEnd ≤ tmpsig.length) :
    copyValue (pre ++ v ++ post) fieldEnd pre.length v.length tmpsig overflow
      = .ok (if 32 < (stripZeros v).length then (tmpsig, true)
             else (tmpsig.take (fieldEnd - (stripZeros v).length) ++ stripZeros v
                    ++ tmpsig.drop fieldEnd, overflow)) := by
  have hskip := skipLeadingZeros_append v pre post
  have hle := stripZeros_length_le v
  unfold copyValue
  simp only [hskip]
  by_cases hk : 32 < (stripZeros v).length
  · simp only [gt_iff_lt, hk, if_true]
  · have hsub : sizeSub fieldEnd (stripZeros v).length = .ok (fieldEnd - (stripZeros v).length) :=
      sizeSub_of_le _ _ (by omega)
    have e2 : pre ++ v ++ post
        = (pre ++ List.replicate (v.length - (stripZeros v).length) 0) ++ stripZeros v ++ post := by
      conv_lhs => rw [stripZeros_eq v]
      simp
    have hcp := memcpy_append (stripZeros v)
      (pre ++ List.replicate (v.length - (stripZeros v).length) 0) post tmpsig
      (fieldEnd - (stripZeros v).length) (by omega)
    rw [← e2] at hcp
    simp only [List.length_append, List.length_replicate] at hcp
    have e3 : fieldEnd - (stripZeros v).length + (stripZeros v).length = fieldEnd := by omega
    rw [e3] at hcp
    simp only [gt_iff_lt, hk, if_false, hsub, hcp]

theorem slice_split (input : List Byte) (pos len : Nat) (h : pos + len ≤ input.length) :
    input = input.take pos ++ slice input pos len ++ input.drop (pos + len) ∧
    (input.take pos).length = pos ∧ (slice input pos len).length = len := by
  refine ⟨?_, ?_, ?_⟩
  · unfold slice
    rw [List.append_assoc, ← List.drop_drop, List.take_append_drop, List.take_append_drop]
  · simp; omega
  · unfold slice; simp; omega

theorem copyValue_slice (input tmpsig : List Byte) (fieldEnd pos len : Nat) (overflow : Bool)
    (h : pos + len ≤ input.length) (h32 : 32 ≤ fieldEnd) (hbuf : fieldEnd ≤ tmpsig.length) :
    copyValue input fieldEnd pos len tmpsig overflow
      = .ok (if 32 < (stripZeros (slice input pos len)).length then (tmpsig, true)
             else (tmpsig.take (fieldEnd - (stripZeros (slice input pos len)).length)
                    ++ stripZeros (slice input pos len) ++ tmpsig.drop fieldEnd, overflow)) := by
  obtain ⟨he, hp, hl⟩ := slice_split input pos len h
  have := copyValue_append (input.take pos) (slice input pos len) (input.drop (pos + len))
    tmpsig fieldEnd overflow h32 hbuf
  rw [← he, hp, hl] at this
  exact this

/-- The buffer `tmpsig` after lines 134-156 when neither value overflows. -/
theorem assemble_fits (input : List Byte) (f : Frame)
    (hr : f.rpos + f.rlen ≤ input.length) (hs : f.spos + f.slen ≤ input.length)
    (hr32 : (stripZeros (slice input f.rpos f.rlen)).length ≤ 32)
    (hs32 : (stripZeros (slice input f.spos f.slen)).length ≤ 32) :
    assemble input f = .ok (padLeft32 (stripZeros (slice input f.rpos f.rlen))
      ++ padLeft32 (stripZeros (slice input f.spos f.slen)), false) := by
  have h1 := copyValue_slice input (List.replicate 64 0) 32 f.rpos f.rlen false hr
    (le_refl _) (by simp)
  have hn1 : ¬ (32 < (stripZeros (slice input f.rpos f.rlen)).length) := by omega
  have hn2 : ¬ (32 < (stripZeros (slice input f.spos f.slen)).length) := by omega
  simp only [hn1, if_false] at h1
  generalize stripZeros (slice input f.rpos f.rlen) = r at *
  have e1 : List.take (32 - r.length) (List.replicate 64 (0 : Byte)) ++ r
      ++ List.drop 32 (List.replicate 64 0) = padLeft32 r ++ List.replicate 32 0 := by
    unfold padLeft32
    rw [List.take_replicate, List.drop_replicate]
    have : min (32 - r.length) 64 = 32 - r.length := by omega
    rw [this]
  rw [e1] at h1
  have hpl : (padLeft32 r).length = 32 := by unfold padLeft32; simp; omega
  have h2 := copyValue_slice input (padLeft32 r ++ List.replicate 32 0) 64 f.spos f.slen false hs
    (by omega) (by simp [hpl])
  simp only [hn2, if_false] at h2
  generalize stripZeros (slice input f.spos f.slen) = s at *
  have e2 : List.take (64 - s.length) (padLeft32 r ++ List.replicate 32 0) ++ s
      ++ List.drop 64 (padLeft32 r ++ List.replicate 32 0) = padLeft32 r ++ padLeft32 s := by
    have a1 : 64 - s.length = (padLeft32 r).length + (32 - s.length) := by omega
    have a2 : List.drop 64 (padLeft32 r ++ List.replicate 32 0) = [] := by
      apply List.drop_eq_nil_of_le; simp [hpl]
    rw [a1, List.take_append, List.take_replicate, a2]
    have : min (32 - s.length) 32 = 32 - s.length := by omega
    rw [this]
    simp [padLeft32]
  rw [e2] at h2
  unfold assemble
  simp only [h1, h2]

/-- Lines 134-156 flag the overflow when a value keeps more than 32 octets. -/
theorem assemble_overflow (input : List Byte) (f : Frame)
    (hr : f.rpos + f.rlen ≤ input.length) (hs : f.spos + f.slen ≤ input.length)
    (hov : 32 < (stripZeros (slice input f.rpos f.rlen)).length ∨
      32 < (stripZeros (slice input f.spos f.slen)).length) :
    ∃ tmpsig, assemble input f = .ok (tmpsig, true) := by
  have h1 := copyValue_slice input (List.replicate 64 0) 32 f.rpos f.rlen false hr
    (le_refl _) (by simp)
  by_cases hr32 : 32 < (stripZeros (slice input f.rpos f.rlen)).length
  · simp only [hr32, if_true] at h1
    have h2 := copyValue_slice input (List.replicate 64 0) 64 f.spos f.slen true hs
      (by omega) (by simp)
    by_cases hs32 : 32 < (stripZeros (slice input f.spos f.slen)).length
    · simp only [hs32, if_true] at h2
      eapply Exists.intro
      unfold assemble; simp only [h1]; exact h2
    · simp only [hs32, if_false] at h2
      eapply Exists.intro
      unfold assemble; simp only [h1]; exact h2
  · have hs32 : 32 < (stripZeros (slice input f.spos f.slen)).length := by
      rcases hov with h | h
      · exact absurd h hr32
      · exact h
    simp only [hr32, if_false] at h1
    have h2 := copyValue_slice input
      (List.take (32 - (stripZeros (slice input f.rpos f.rlen)).length) (List.replicate 64 0)
        ++ stripZeros (slice input f.rpos f.rlen) ++ List.drop 32 (List.replicate 64 0))
      64 f.spos f.slen false hs (by omega) (by simp; omega)
    simp only [hs32, if_true] at h2
    eapply Exists.intro
    unfold assemble; simp only [h1]; exact h2

/-! ### The whole function -/

theorem framed_length (sl lr vr ls vs t : List Byte) :
    (framed sl lr vr ls vs t).length
      = 1 + sl.length + 1 + lr.length + vr.length + 1 + ls.length + vs.length + t.length := by
  simp [framed]; omega

theorem slice_framed_r (sl lr vr ls vs t : List Byte) :
    slice (framed sl lr vr ls vs t) (1 + sl.length + 1 + lr.length) vr.length = vr := by
  have e : framed sl lr vr ls vs t
      = (0x30 :: (sl ++ 2 :: lr)) ++ (vr ++ 2 :: (ls ++ (vs ++ t))) := by simp [framed]
  have l : 1 + sl.length + 1 + lr.length = (0x30 :: (sl ++ 2 :: lr) : List Byte).length := by
    simp; omega
  unfold slice
  rw [e, l, take_append_append]

theorem slice_framed_s (sl lr vr ls vs t : List Byte) :
    slice (framed sl lr vr ls vs t)
      (1 + sl.length + 1 + lr.length + vr.length + 1 + ls.length) vs.length = vs := by
  have e : framed sl lr vr ls vs t
      = (0x30 :: (sl ++ 2 :: (lr ++ (vr ++ 2 :: ls)))) ++ (vs ++ t) := by simp [framed]
  have l : 1 + sl.length + 1 + lr.length + vr.length + 1 + ls.length
      = (0x30 :: (sl ++ 2 :: (lr ++ (vr ++ 2 :: ls))) : List Byte).length := by
    simp; omega
  unfold slice
  rw [e, l, take_append_append]

/-- A frame comes from exactly one reading of the input as `30 sl 02 lr vr 02 ls vs t`. -/
theorem parseFrame_some (input : List Byte) (f : Frame) (hf : parseFrame input = .ok (some f)) :
    ∃ sl lr vr ls vs t, isSequenceLength sl = true ∧
      decodeLength lr = some vr.length ∧ decodeLength ls = some vs.length ∧
      input = framed sl lr vr ls vs t ∧ f = frameOf sl lr vr ls vs.length := by
  rcases parseFrame_cases input with h | ⟨sl, lr, vr, ls, vs, t, hsl, hlr, hls, he⟩
  · rw [h] at hf; cases hf
  · refine ⟨sl, lr, vr, ls, vs, t, hsl, hlr, hls, he, ?_⟩
    have := parseFrame_framed sl lr vr ls vs t hsl hlr hls
    rw [← he, hf] at this
    injection this with this
    injection this with this

/-- The values of a frame lie inside the input, S behind R. -/
theorem parseFrame_bounds (input : List Byte) (f : Frame) (hf : parseFrame input = .ok (some f)) :
    f.rpos + f.rlen ≤ f.spos ∧ f.spos + f.slen ≤ input.length := by
  obtain ⟨sl, lr, vr, ls, vs, t, _, _, _, he, hfr⟩ := parseFrame_some input f hf
  subst he hfr
  rw [framed_length]
  simp only [frameOf]
  omega

/-- The function in terms of the frame: when lines 38-132 do not return 0, the result
is `resultOf` of the two value ranges. -/
theorem parse_of_frame {κ σ : Type} (P : Secp256k1 κ σ) (ctx : κ) (input : List Byte) (f : Frame)
    (hf : parseFrame input = .ok (some f)) :
    ecdsa_signature_parse_der_lax P ctx input
      = .ok (resultOf P ctx (slice input f.rpos f.rlen) (slice input f.spos f.slen)) := by
  obtain ⟨hb1, hs⟩ := parseFrame_bounds input f hf
  have hr : f.rpos + f.rlen ≤ input.length := by omega
  unfold ecdsa_signature_parse_der_lax resultOf placeholder
  simp only [hf]
  by_cases hov : 32 < (stripZeros (slice input f.rpos f.rlen)).length ∨
      32 < (stripZeros (slice input f.spos f.slen)).length
  · obtain ⟨tmpsig, ha⟩ := assemble_overflow input f hr hs hov
    simp only [ha, hov, if_true]
    simp
  · have ha := assemble_fits input f hr hs (by omega) (by omega)
    simp only [ha, hov, if_false]
    cases hc : (P.ecdsa_signature_parse_compact ctx
      (padLeft32 (stripZeros (slice input f.rpos f.rlen))
        ++ padLeft32 (stripZeros (slice input f.spos f.slen)))).1 <;> simp

/-- The function on an input `30 sl 02 lr vr 02 ls vs t`. -/
theorem parse_framed {κ σ : Type} (P : Secp256k1 κ σ) (ctx : κ) (sl lr vr ls vs t : List Byte)
    (hsl : isSequenceLength sl = true)
    (hlr : decodeLength lr = some vr.length) (hls : decodeLength ls = some vs.length) :
    ecdsa_signature_parse_der_lax P ctx (framed sl lr vr ls vs t)
      = .ok (resultOf P ctx vr vs) := by
  have hf := parseFrame_framed sl lr vr ls vs t hsl hlr hls
  have := parse_of_frame P ctx _ _ hf
  simp only [frameOf, slice_framed_r, slice_framed_s] at this
  exact this

/-- The function when lines 38-132 return 0. -/
theorem parse_of_no_frame {κ σ : Type} (P : Secp256k1 κ σ) (ctx : κ) (input : List Byte)
    (hf : parseFrame input = .ok none) :
    ecdsa_signature_parse_der_lax P ctx input = .ok ⟨false, placeholder P ctx, false⟩ := by
  unfold ecdsa_signature_parse_der_lax placeholder
  simp only [hf]

theorem resultOf_ret {κ σ : Type} (P : Secp256k1 κ σ) (ctx : κ) (vr vs : List Byte) :
    (resultOf P ctx vr vs).ret = true := by
  unfold resultOf
  split
  · rfl
  · split <;> rfl

/-! ### Fixed-width big-endian octet strings -/

theorem beBytes_length (k n : Nat) : (beBytes k n).length = k := by
  induction k generalizing n with
  | zero => simp [beBytes]
  | succ k ih => simp [beBytes, ih]

theorem beValue_beBytes (k n : Nat) (h : n < 256 ^ k) : beValue (beBytes k n) = n := by
  induction k generalizing n with
  | zero => simp [beBytes, beValue] at *; omega
  | succ k ih =>
    have h1 : n / 256 < 256 ^ k := by
      rw [pow_succ] at h
      exact Nat.div_lt_of_lt_mul (by omega)
    have h2 : (Fin.ofNat (n % 256) : Byte).val = n % 256 := by
      show n % 256 % 256 = n % 256
      omega
    rw [beBytes, beValue_append, ih _ h1]
    simp only [beValue, List.foldl_cons, List.foldl_nil, h2, List.length_singleton]
    omega

theorem stripZeros_idem (v : List Byte) : stripZeros (stripZeros v) = stripZeros v := by
  induction v with
  | nil => simp [stripZeros]
  | cons b v ih =>
    by_cases hb : b.val = 0
    · rw [stripZeros_cons_zero b v hb, ih]
    · rw [stripZeros_cons_ne b v hb, stripZeros_cons_ne b v hb]

theorem padLeft32_stripZeros (v : List Byte) (h : v.length = 32) :
    padLeft32 (stripZeros v) = v := by
  have := stripZeros_eq v
  unfold padLeft32
  rw [← h]
  exact this.symm

theorem stripZeros_replicate_append (k : Nat) (v : List Byte) :
    stripZeros (List.replicate k 0 ++ v) = stripZeros v := by
  induction k with
  | zero => simp
  | succ k ih =>
    rw [List.replicate_succ, List.cons_append, stripZeros_cons_zero 0 _ rfl, ih]

theorem padLeft32_length (v : List Byte) (h : v.length ≤ 32) : (padLeft32 v).length = 32 := by
  unfold padLeft32; simp; omega

theorem beValue_replicate_zero (k : Nat) : beValue (List.replicate k (0 : Byte)) = 0 := by
  induction k with
  | zero => simp [beValue]
  | succ k ih =>
    rw [List.replicate_succ, beValue_cons, ih]
    simp

theorem beValue_stripZeros (v : List Byte) : beValue (stripZeros v) = beValue v := by
  conv_rhs => rw [stripZeros_eq v]
  rw [beValue_append, beValue_replicate_zero]
  simp

theorem beValue_padLeft32 (v : List Byte) : beValue (padLeft32 v) = beValue v := by
  unfold padLeft32
  rw [beValue_append, beValue_replicate_zero]
  simp

theorem derInteger_strip (n : Nat) :
    stripZeros (derInteger n) = stripZeros (beBytes 32 n) := by
  unfold derInteger
  have hid := stripZeros_idem (beBytes 32 n)
  cases hm : stripZeros (beBytes 32 n) with
  | nil => simp [stripZeros]
  | cons b m =>
    rw [hm] at hid
    simp only
    by_cases hb : 128 ≤ b.val
    · simp only [hb, if_true]
      rw [stripZeros_cons_zero 0 _ rfl, hid]
    · simp only [hb, if_false]
      exact hid

theorem derInteger_length (n : Nat) : (derInteger n).length ≤ 33 := by
  unfold derInteger
  have hle := stripZeros_length_le (beBytes 32 n)
  rw [beBytes_length] at hle
  cases hm : stripZeros (beBytes 32 n) with
  | nil => simp
  | cons b m =>
    rw [hm] at hle
    simp only [List.length_cons] at hle
    simp only
    by_cases hb : 128 ≤ b.val
    · simp only [hb, if_true, List.length_cons]; omega
    · simp only [hb, if_false, List.length_cons]; omega

theorem derSignature_framed (R S : Nat) :
    derSignature R S = framed [Fin.ofNat (2 + (derInteger R).length + 2 + (derInteger S).length)]
      [Fin.ofNat (derInteger R).length] (derInteger R)
      [Fin.ofNat (derInteger S).length] (derInteger S) [] := by
  simp [derSignature, framed]

theorem decodeLength_short (n : Nat) (h : n < 128) :
    decodeLength [(Fin.ofNat n : Byte)] = some n := by
  have h2 : (Fin.ofNat n : Byte).val = n := by
    show n % 256 = n
    omega
  simp [decodeLength, h2, h]

/-- The function never faults: it returns on every input. -/
theorem parse_total {κ σ : Type} (P : Secp256k1 κ σ) (ctx : κ) (input : List Byte) :
    ∃ r, ecdsa_signature_parse_der_lax P ctx input = .ok r := by
  rcases parseFrame_cases input with h | ⟨sl, lr, vr, ls, vs, t, hsl, hlr, hls, he⟩
  · exact ⟨_, parse_of_no_frame P ctx input h⟩
  · rw [he]; exact ⟨_, parse_framed P ctx sl lr vr ls vs t hsl hlr hls⟩

/-- The function returns 1 exactly when lines 38-132 fix a frame. -/
theorem accepted_iff_frame {κ σ : Type} (P : Secp256k1 κ σ) (ctx : κ) (input : List Byte) :
    (∃ r, ecdsa_signature_parse_der_lax P ctx input = .ok r ∧ r.ret = true) ↔
    ∃ f, parseFrame input = .ok (some f) := by
  constructor
  · rintro ⟨r, hr, hret⟩
    rcases parseFrame_cases input with h | ⟨sl, lr, vr, ls, vs, t, hsl, hlr, hls, he⟩
    · rw [parse_of_no_frame P ctx input h] at hr
      injection hr with hr
      rw [← hr] at hret
      cases hret
    · rw [he]; exact ⟨_, parseFrame_framed sl lr vr ls vs t hsl hlr hls⟩
  · rintro ⟨f, hf⟩
    exact ⟨_, parse_of_frame P ctx input f hf, resultOf_ret P ctx _ _⟩

theorem parseIntegerHeader_too_long (pre tail : List Byte) (b : Byte) (hb : 128 ≤ b.val)
    (h4 : 4 ≤ (stripZeros (tail.take (b.val - 128))).length) :
    parseIntegerHeader (pre ++ 2 :: b :: tail) pre.length = .ok none := by
  by_cases hc : tail.length < b.val - 128
  · exact parseIntegerHeader_truncated pre tail b hb hc
  · have hlb : (tail.take (b.val - 128)).length = b.val - 128 := by simp; omega
    have h := parseIntegerHeader_long pre (tail.take (b.val - 128)) (tail.drop (b.val - 128)) b
      hb hlb
    rw [List.take_append_drop] at h
    rw [h]
    have : (stripZeros (tail.take (b.val - 128))).length ≥ 4 := h4
    simp only [this, if_true]

theorem framed_append (sl lr vr ls vs t u : List Byte) :
    framed sl lr vr ls vs t ++ u = framed sl lr vr ls vs (t ++ u) := by
  simp [framed]

/-- Octets behind an accepted input do not change its frame. -/
theorem parseFrame_append (input u : List Byte) (f : Frame)
    (hf : parseFrame input = .ok (some f)) : parseFrame (input ++ u) = .ok (some f) := by
  obtain ⟨sl, lr, vr, ls, vs, t, hsl, hlr, hls, he, hfr⟩ := parseFrame_some input f hf
  rw [he, framed_append, hfr]
  exact parseFrame_framed sl lr vr ls vs (t ++ u) hsl hlr hls

theorem stripZeros_of_nonzero (w : List Byte) (h : ∀ b ∈ w, b ≠ 0) : stripZeros w = w := by
  cases w with
  | nil => simp [stripZeros]
  | cons b w =>
    apply stripZeros_cons_ne
    intro hb
    exact h b (by simp) (Fin.ext hb)

/-! ### The claims -/

/-- C1. Strict-encoding round trip: for integers `R`, `S` below `2 ^ 256` whose compact
form the compact-signature constructor accepts, the function on the strict DER encoding
of `(R, S)` returns 1 without overflow, and the signature is the one the constructor makes
of the 64 octets that are `R` and then `S`, each big-endian in 32 octets. -/
theorem strict_encoding_round_trip {κ σ : Type} (P : Secp256k1 κ σ) (ctx : κ) (R S : Nat)
    (hR : R < 2 ^ 256) (hS : S < 2 ^ 256)
    (hacc : (P.ecdsa_signature_parse_compact ctx (beBytes 32 R ++ beBytes 32 S)).1 = true) :
    ecdsa_signature_parse_der_lax P ctx (derSignature R S)
      = .ok ⟨true, (P.ecdsa_signature_parse_compact ctx (beBytes 32 R ++ beBytes 32 S)).2, false⟩
    ∧ (beBytes 32 R).length = 32 ∧ beValue (beBytes 32 R) = R
    ∧ (beBytes 32 S).length = 32 ∧ beValue (beBytes 32 S) = S := by
  have hlR := derInteger_length R
  have hlS := derInteger_length S
  refine ⟨?_, beBytes_length _ _, beValue_beBytes 32 R (by norm_num; exact hR),
    beBytes_length _ _, beValue_beBytes 32 S (by norm_num; exact hS)⟩
  have hsl : isSequenceLength
      [(Fin.ofNat (2 + (derInteger R).length + 2 + (derInteger S).length) : Byte)] = true := by
    have h2 : (Fin.ofNat (2 + (derInteger R).length + 2 + (derInteger S).length) : Byte).val
        = (2 + (derInteger R).length + 2 + (derInteger S).length) % 256 := rfl
    have h3 : (2 + (derInteger R).length + 2 + (derInteger S).length) % 256 < 128 := by omega
    simp [isSequenceLength, h2, h3]
  rw [derSignature_framed, parse_framed P ctx _ _ _ _ _ _ hsl
    (decodeLength_short _ (by omega)) (decodeLength_short _ (by omega))]
  have hr32 := stripZeros_length_le (beBytes 32 R)
  have hs32 := stripZeros_length_le (beBytes 32 S)
  rw [beBytes_length] at hr32 hs32
  have hno : ¬ (32 < (stripZeros (beBytes 32 R)).length ∨ 32 < (stripZeros (beBytes 32 S)).length) := by
    omega
  unfold resultOf
  rw [derInteger_strip, derInteger_strip, padLeft32_stripZeros _ (beBytes_length 32 R),
    padLeft32_stripZeros _ (beBytes_length 32 S)]
  simp only [hno, if_false, hacc, if_true]

/-- C1, at `R = 2 ^ 255 + 5` (top bit set, so the encoding has a `00` in front) and
`S = 7`, with the reference primitives. -/
theorem strict_encoding_round_trip_witness :
    ecdsa_signature_parse_der_lax libsecp256k1 () (derSignature (2 ^ 255 + 5) 7)
      = .ok ⟨true, (libsecp256k1.ecdsa_signature_parse_compact ()
          (beBytes 32 (2 ^ 255 + 5) ++ beBytes 32 7)).2, false⟩
    ∧ (beBytes 32 (2 ^ 255 + 5)).length = 32 ∧ beValue (beBytes 32 (2 ^ 255 + 5)) = 2 ^ 255 + 5
    ∧ (beBytes 32 7).length = 32 ∧ beValue (beBytes 32 7) = 7 :=
  strict_encoding_round_trip libsecp256k1 () (2 ^ 255 + 5) 7 (by norm_num) (by norm_num)
    (by decide!)

/-- C2. Bounds safety: on every input (the empty one included) the function ends
with a result, never with a fault, so every read `input[pos]` is inside the input, every
`inputlen - pos` is taken with `pos ≤ inputlen` and every store is inside `tmpsig`; and
for every frame of the input the copy of R leaves `tmpsig[32..64)` as it was and the copy
of S leaves `tmpsig[0..32)` as it was, whatever the 64-octet buffer held. -/
theorem parser_bounds_safe {κ σ : Type} (P : Secp256k1 κ σ) (ctx : κ) (input : List Byte) :
    (∃ r, ecdsa_signature_parse_der_lax P ctx input = .ok r) ∧
    (∃ fr, parseFrame input = .ok fr) ∧
    (∀ f, parseFrame input = .ok (some f) →
      ∀ (tmpsig : List Byte) (overflow : Bool), tmpsig.length = 64 →
        (∃ buf ov, copyValue input 32 f.rpos f.rlen tmpsig overflow = .ok (buf, ov)
          ∧ buf.length = 64 ∧ buf.drop 32 = tmpsig.drop 32) ∧
        (∃ buf ov, copyValue input 64 f.spos f.slen tmpsig overflow = .ok (buf, ov)
          ∧ buf.length = 64 ∧ buf.take 32 = tmpsig.take 32)) := by
  refine ⟨parse_total P ctx input, ?_, ?_⟩
  · rcases parseFrame_cases input with h | ⟨sl, lr, vr, ls, vs, t, hsl, hlr, hls, he⟩
    · exact ⟨_, h⟩
    · rw [he]; exact ⟨_, parseFrame_framed sl lr vr ls vs t hsl hlr hls⟩
  · intro f hf tmpsig overflow hlen
    obtain ⟨hb1, hs⟩ := parseFrame_bounds input f hf
    have hr : f.rpos + f.rlen ≤ input.length := by omega
    constructor
    · have h1 := copyValue_slice input tmpsig 32 f.rpos f.rlen overflow hr (le_refl _) (by omega)
      by_cases hk : 32 < (stripZeros (slice input f.rpos f.rlen)).length
      · simp only [hk, if_true] at h1
        exact ⟨_, _, h1, hlen, rfl⟩
      · simp only [hk, if_false] at h1
        refine ⟨_, _, h1, ?_, ?_⟩
        · simp; omega
        · have hl : (List.take (32 - (stripZeros (slice input f.rpos f.rlen)).length) tmpsig
              ++ stripZeros (slice input f.rpos f.rlen)).length = 32 := by
            simp; omega
          exact drop_append_of_length _ _ 32 hl
    · have h1 := copyValue_slice input tmpsig 64 f.spos f.slen overflow hs (by omega) (by omega)
      by_cases hk : 32 < (stripZeros (slice input f.spos f.slen)).length
      · simp only [hk, if_true] at h1
        exact ⟨_, _, h1, hlen, rfl⟩
      · simp only [hk, if_false] at h1
        refine ⟨_, _, h1, ?_, ?_⟩
        · simp; omega
        · rw [List.append_assoc, List.take_append_of_le_length (by simp; omega),
            List.take_take]
          have : min 32 (64 - (stripZeros (slice input f.spos f.slen)).length) = 32 := by omega
          rw [this]

/-- C2, on the empty input and on `30 06 02 01 01 02 01 01`. -/
theorem parser_bounds_safe_witness :
    (∃ r, ecdsa_signature_parse_der_lax libsecp256k1 () [] = .ok r) ∧
    (∃ r, ecdsa_signature_parse_der_lax libsecp256k1 () sigOneOne = .ok r) ∧
    parseFrame sigOneOne = .ok (some ⟨4, 1, 7, 1⟩) :=
  ⟨(parser_bounds_safe libsecp256k1 () []).1, (parser_bounds_safe libsecp256k1 () sigOneOne).1,
    by decide⟩

/-- C3. Safe fallback: whenever the function returns 0, the output signature is the
canonical placeholder, the signature the compact-signature constructor leaves for 64
zero octets (and the overflow flag is clear). -/
theorem failure_leaves_placeholder {κ σ : Type} (P : Secp256k1 κ σ) (ctx : κ)
    (input : List Byte) (r : ParseResult σ)
    (hrun : ecdsa_signature_parse_der_lax P ctx input = .ok r) (hret : r.ret = false) :
    r.sig = (P.ecdsa_signature_parse_compact ctx (List.replicate 64 0)).2
      ∧ r.overflow = false := by
  rcases parseFrame_cases input with h | ⟨sl, lr, vr, ls, vs, t, hsl, hlr, hls, he⟩
  · rw [parse_of_no_frame P ctx input h] at hrun
    injection hrun with hrun
    rw [← hrun]
    exact ⟨rfl, rfl⟩
  · rw [he, parse_framed P ctx sl lr vr ls vs t hsl hlr hls] at hrun
    injection hrun with hrun
    rw [← hrun, resultOf_ret] at hret
    cases hret

/-- C3, on the input `30 06 02 01 01 03 01 01`, whose second integer tag is wrong. -/
theorem failure_leaves_placeholder_witness :
    ecdsa_signature_parse_der_lax libsecp256k1 () [0x30, 0x06, 0x02, 0x01, 0x01, 0x03, 0x01, 0x01]
      = .ok ⟨false, List.replicate 64 0, false⟩ ∧
    (List.replicate 64 (0 : Byte)
        = (libsecp256k1.ecdsa_signature_parse_compact () (List.replicate 64 0)).2
      ∧ false = false) :=
  ⟨by decide, failure_leaves_placeholder libsecp256k1 ()
    [0x30, 0x06, 0x02, 0x01, 0x01, 0x03, 0x01, 0x01] ⟨false, List.replicate 64 0, false⟩
    (by decide) rfl⟩

/-- C4. Decoded value: on an input that the function accepts (lines 38-132 fix the frame
`f`), when the R and the S value each keep at most 32 octets once their leading zero
octets are dropped, lines 134-156 assemble a 64-octet buffer without overflow whose halves
`[0,32)` and `[32,64)` have, as unsigned big-endian numbers, the values of the raw R and
S octets; and when the compact-signature constructor accepts that buffer the function
returns 1 with `overflow = 0` and the signature the constructor made of it. -/
theorem decoded_value {κ σ : Type} (P : Secp256k1 κ σ) (ctx : κ) (input : List Byte) (f : Frame)
    (hf : parseFrame input = .ok (some f))
    (hr : (stripZeros (slice input f.rpos f.rlen)).length ≤ 32)
    (hs : (stripZeros (slice input f.spos f.slen)).length ≤ 32) :
    ∃ tmpsig, assemble input f = .ok (tmpsig, false) ∧ tmpsig.length = 64 ∧
      beValue (tmpsig.take 32) = beValue (slice input f.rpos f.rlen) ∧
      beValue (tmpsig.drop 32) = beValue (slice input f.spos f.slen) ∧
      ((P.ecdsa_signature_parse_compact ctx tmpsig).1 = true →
        ecdsa_signature_parse_der_lax P ctx input
          = .ok ⟨true, (P.ecdsa_signature_parse_compact ctx tmpsig).2, false⟩) := by
  obtain ⟨hb1, hbs⟩ := parseFrame_bounds input f hf
  have ha := assemble_fits input f (by omega) hbs hr hs
  have hrun := parse_of_frame P ctx input f hf
  have hlr := padLeft32_length _ hr
  have hls := padLeft32_length _ hs
  refine ⟨_, ha, by simp [hlr, hls], ?_, ?_, ?_⟩
  · rw [← hlr, List.take_left, beValue_padLeft32, beValue_stripZeros]
  · rw [drop_append_of_length _ _ 32 hlr, beValue_padLeft32, beValue_stripZeros]
  · intro hacc
    have hno : ¬ (32 < (stripZeros (slice input f.rpos f.rlen)).length ∨
        32 < (stripZeros (slice input f.spos f.slen)).length) := by omega
    rw [hrun]
    unfold resultOf
    simp only [hno, if_false, hacc, if_true]

/-- C4, on `30 06 02 01 01 02 01 01`: success, no overflow, R = S = 1. -/
theorem decoded_value_witness :
    ecdsa_signature_parse_der_lax libsecp256k1 () sigOneOne
      = .ok ⟨true, beBytes 32 1 ++ beBytes 32 1, false⟩ ∧
    ∃ tmpsig, assemble sigOneOne ⟨4, 1, 7, 1⟩ = .ok (tmpsig, false) ∧ tmpsig.length = 64 ∧
      beValue (tmpsig.take 32) = beValue (slice sigOneOne 4 1) ∧
      beValue (tmpsig.drop 32) = beValue (slice sigOneOne 7 1) ∧
      ((libsecp256k1.ecdsa_signature_parse_compact () tmpsig).1 = true →
        ecdsa_signature_parse_der_lax libsecp256k1 () sigOneOne
          = .ok ⟨true, (libsecp256k1.ecdsa_signature_parse_compact () tmpsig).2, false⟩) :=
  ⟨by decide!, decoded_value libsecp256k1 () sigOneOne ⟨4, 1, 7, 1⟩ (by decide!) (by decide!)
    (by decide!)⟩

/-- C5. Oversized-integer policy: on a well-framed input (lines 38-132 fix the frame `f`)
whose R value or S value keeps more than 32 octets once its leading zero octets are
dropped, the function returns 1 with `overflow = 1` and the canonical placeholder as
signature, whatever the other value is. -/
theorem oversized_integer_overflow {κ σ : Type} (P : Secp256k1 κ σ) (ctx : κ)
    (input : List Byte) (f : Frame)
    (hf : parseFrame input = .ok (some f))
    (hov : 32 < (stripZeros (slice input f.rpos f.rlen)).length ∨
      32 < (stripZeros (slice input f.spos f.slen)).length) :
    ecdsa_signature_parse_der_lax P ctx input
      = .ok ⟨true, (P.ecdsa_signature_parse_compact ctx (List.replicate 64 0)).2, true⟩ := by
  rw [parse_of_frame P ctx input f hf]
  unfold resultOf placeholder
  simp only [hov, if_true]

/-- C5, on an R of 33 octets `01` next to the valid S = 1. -/
theorem oversized_integer_overflow_witness :
    ecdsa_signature_parse_der_lax libsecp256k1 ()
        ([0x30, 0x26, 0x02, 0x21] ++ List.replicate 33 1 ++ [0x02, 0x01, 0x01])
      = .ok ⟨true, (libsecp256k1.ecdsa_signature_parse_compact () (List.replicate 64 0)).2,
          true⟩ :=
  oversized_integer_overflow libsecp256k1 ()
    ([0x30, 0x26, 0x02, 0x21] ++ List.replicate 33 1 ++ [0x02, 0x01, 0x01]) ⟨4, 33, 39, 1⟩
    (by decide!) (by decide!)

/-- C6. Leading-zero padding invariance: an accepted input (lines 38-132 fix the frame
`f`) reads as `30 sl 02 lr R 02 ls S t` with the R and S values of the frame, and for
every `k ≥ 1`, putting `k` octets `00` in front of the R value with any length field
`lr'` that denotes the length raised by `k`, or doing so for the S value, gives an input
on which the function returns the same result: accepted, same overflow flag, same
signature. The sequence length field may stay as it is or be replaced by another one
(`sl'`). -/
theorem leading_zero_padding_invariance {κ σ : Type} (P : Secp256k1 κ σ) (ctx : κ)
    (input : List Byte) (f : Frame) (hf : parseFrame input = .ok (some f)) :
    ∃ sl lr ls t r,
      input = framed sl lr (slice input f.rpos f.rlen) ls (slice input f.spos f.slen) t ∧
      ecdsa_signature_parse_der_lax P ctx input = .ok r ∧ r.ret = true ∧
      ∀ k sl', 1 ≤ k → isSequenceLength sl' = true →
        (∀ lr', decodeLength lr' = some (f.rlen + k) →
          ecdsa_signature_parse_der_lax P ctx
            (framed sl' lr' (List.replicate k 0 ++ slice input f.rpos f.rlen) ls
              (slice input f.spos f.slen) t) = .ok r) ∧
        (∀ ls', decodeLength ls' = some (f.slen + k) →
          ecdsa_signature_parse_der_lax P ctx
            (framed sl' lr (slice input f.rpos f.rlen) ls'
              (List.replicate k 0 ++ slice input f.spos f.slen) t) = .ok r) := by
  obtain ⟨sl, lr, vr, ls, vs, t, hsl, hlr, hls, he, hfr⟩ := parseFrame_some input f hf
  subst he hfr
  simp only [frameOf, slice_framed_r, slice_framed_s]
  refine ⟨sl, lr, ls, t, resultOf P ctx vr vs, rfl, parse_framed P ctx sl lr vr ls vs t hsl hlr hls,
    resultOf_ret P ctx vr vs, ?_⟩
  intro k sl' _ hsl'
  constructor
  · intro lr' hlr'
    have hlen : (List.replicate k (0 : Byte) ++ vr).length = vr.length + k := by simp; omega
    rw [parse_framed P ctx sl' lr' _ ls vs t hsl' (by rw [hlen]; exact hlr') hls]
    unfold resultOf
    rw [stripZeros_replicate_append]
  · intro ls' hls'
    have hlen : (List.replicate k (0 : Byte) ++ vs).length = vs.length + k := by simp; omega
    rw [parse_framed P ctx sl' lr vr ls' _ t hsl' hlr (by rw [hlen]; exact hls')]
    unfold resultOf
    rw [stripZeros_replicate_append]

/-- C6, on `30 06 02 01 01 02 01 01`: for instance `30 06 02 03 00 00 01 02 01 01`
gives the same result. -/
theorem leading_zero_padding_invariance_witness :
    (∃ sl lr ls t r,
      sigOneOne = framed sl lr (slice sigOneOne 4 1) ls (slice sigOneOne 7 1) t ∧
      ecdsa_signature_parse_der_lax libsecp256k1 () sigOneOne = .ok r ∧ r.ret = true ∧
      ∀ k sl', 1 ≤ k → isSequenceLength sl' = true →
        (∀ lr', decodeLength lr' = some (1 + k) →
          ecdsa_signature_parse_der_lax libsecp256k1 ()
            (framed sl' lr' (List.replicate k 0 ++ slice sigOneOne 4 1) ls
              (slice sigOneOne 7 1) t) = .ok r) ∧
        (∀ ls', decodeLength ls' = some (1 + k) →
          ecdsa_signature_parse_der_lax libsecp256k1 ()
            (framed sl' lr (slice sigOneOne 4 1) ls'
              (List.replicate k 0 ++ slice sigOneOne 7 1) t) = .ok r)) ∧
    ecdsa_signature_parse_der_lax libsecp256k1 ()
        [0x30, 0x06, 0x02, 0x03, 0x00, 0x00, 0x01, 0x02, 0x01, 0x01]
      = ecdsa_signature_parse_der_lax libsecp256k1 () sigOneOne :=
  ⟨leading_zero_padding_invariance libsecp256k1 () sigOneOne ⟨4, 1, 7, 1⟩ (by decide),
    by decide!⟩

/-- C7, as stated, fails: in `30 0a 02 84 00 00 00 01 01 02 01 01` the length octet of
R is `84`, long-form with byte-count 4, and the function accepts the input: the three
leading zero length octets are skipped before the count is compared with 4. -/
theorem long_length_counterexample :
    sigLongLength[3]? = some 0x84 ∧ 4 ≤ (0x84 : Byte).val - 128 ∧
    ecdsa_signature_parse_der_lax libsecp256k1 () sigLongLength
      = .ok ⟨true, beBytes 32 1 ++ beBytes 32 1, false⟩ := by
  decide!

/-- C7, amended. When the length octet `b` of R is long-form and 4 or more of the length
octets it announces are left once the leading zero length octets are skipped, the
function returns 0 (with the placeholder); and the same holds when `b` is the length
octet of S behind a well-formed R. -/
theorem long_length_rejected {κ σ : Type} (P : Secp256k1 κ σ) (ctx : κ)
    (sl tail : List Byte) (b : Byte) (hsl : isSequenceLength sl = true) (hb : 128 ≤ b.val)
    (h4 : 4 ≤ (stripZeros (tail.take (b.val - 128))).length) :
    ecdsa_signature_parse_der_lax P ctx (0x30 :: (sl ++ 0x02 :: b :: tail))
      = .ok ⟨false, placeholder P ctx, false⟩ ∧
    ∀ lr vr, decodeLength lr = some vr.length →
      ecdsa_signature_parse_der_lax P ctx
          (0x30 :: (sl ++ 0x02 :: (lr ++ (vr ++ 0x02 :: b :: tail))))
        = .ok ⟨false, placeholder P ctx, false⟩ := by
  constructor
  · apply parse_of_no_frame
    have h1 := parseSequenceHeader_decode sl (2 :: b :: tail) hsl
    have h2 := parseIntegerHeader_too_long (0x30 :: sl) tail b hb h4
    have e2 : (0x30 :: sl : List Byte).length = 1 + sl.length := by simp; omega
    rw [e2] at h2
    simp only [List.cons_append] at h2
    unfold parseFrame
    simp only [h1, h2]
  · intro lr vr hlr
    apply parse_of_no_frame
    have h1 := parseSequenceHeader_decode sl (2 :: (lr ++ (vr ++ 2 :: b :: tail))) hsl
    have h2 := parseIntegerHeader_decode (0x30 :: sl) lr (vr ++ 2 :: b :: tail) vr.length
      hlr (by simp)
    have h3 := parseIntegerHeader_too_long (0x30 :: (sl ++ 2 :: (lr ++ vr))) tail b hb h4
    have e2 : (0x30 :: sl : List Byte).length = 1 + sl.length := by simp; omega
    have e3 : (0x30 :: (sl ++ 2 :: (lr ++ vr)) : List Byte).length
        = 1 + sl.length + 1 + lr.length + vr.length := by simp; omega
    have e3b : (0x30 :: (sl ++ 2 :: (lr ++ vr)) : List Byte) ++ 2 :: b :: tail
        = 0x30 :: (sl ++ 2 :: (lr ++ (vr ++ 2 :: b :: tail))) := by simp
    rw [e2] at h2
    rw [e3, e3b] at h3
    simp only [List.cons_append] at h2
    unfold parseFrame
    simp only [h1, h2, h3]

/-- C7 amended, on `30 0a 02 84 01 00 00 01 ...`: four length octets are left. -/
theorem long_length_rejected_witness :
    ecdsa_signature_parse_der_lax libsecp256k1 ()
        (0x30 :: ([0x0a] ++ 0x02 :: 0x84 :: [0x01, 0x00, 0x00, 0x01, 0x01, 0x02, 0x01, 0x01]))
      = .ok ⟨false, placeholder libsecp256k1 (), false⟩ ∧
    ∀ lr vr, decodeLength lr = some vr.length →
      ecdsa_signature_parse_der_lax libsecp256k1 ()
          (0x30 :: ([0x0a] ++ 0x02 :: (lr ++ (vr ++ 0x02 :: 0x84 ::
            [0x01, 0x00, 0x00, 0x01, 0x01, 0x02, 0x01, 0x01]))))
        = .ok ⟨false, placeholder libsecp256k1 (), false⟩ :=
  long_length_rejected libsecp256k1 () [0x0a] [0x01, 0x00, 0x00, 0x01, 0x01, 0x02, 0x01, 0x01]
    0x84 (by decide) (by decide) (by decide)

/-- C8. Truncation policy: when an accepted input (lines 38-132 fix the frame `f`) ends
with the last octet of the S value, the function returns 0 on each of its proper
prefixes, the empty one included. -/
theorem truncation_rejected {κ σ : Type} (P : Secp256k1 κ σ) (ctx : κ)
    (input : List Byte) (f : Frame) (hf : parseFrame input = .ok (some f))
    (hend : f.spos + f.slen = input.length) (n : Nat) (hn : n < input.length) :
    ecdsa_signature_parse_der_lax P ctx (input.take n)
      = .ok ⟨false, (P.ecdsa_signature_parse_compact ctx (List.replicate 64 0)).2, false⟩ := by
  rcases parseFrame_cases (input.take n) with h | ⟨sl, lr, vr, ls, vs, t, hsl, hlr, hls, he⟩
  · exact parse_of_no_frame P ctx _ h
  · exfalso
    have hf1 := parseFrame_framed sl lr vr ls vs t hsl hlr hls
    rw [← he] at hf1
    have hf2 := parseFrame_append (input.take n) (input.drop n) _ hf1
    rw [List.take_append_drop, hf] at hf2
    injection hf2 with hf2
    injection hf2 with hf2
    have hb := (parseFrame_bounds _ _ hf1).2
    rw [← hf2] at hb
    have hl : (input.take n).length = n := by simp; omega
    omega

/-- C8, on `30 06 02 01 01 02 01 01` cut after 7 octets, and cut to nothing. -/
theorem truncation_rejected_witness :
    ecdsa_signature_parse_der_lax libsecp256k1 () (sigOneOne.take 7)
      = .ok ⟨false, (libsecp256k1.ecdsa_signature_parse_compact () (List.replicate 64 0)).2,
          false⟩ ∧
    ecdsa_signature_parse_der_lax libsecp256k1 () (sigOneOne.take 0)
      = .ok ⟨false, (libsecp256k1.ecdsa_signature_parse_compact () (List.replicate 64 0)).2,
          false⟩ :=
  ⟨truncation_rejected libsecp256k1 () sigOneOne ⟨4, 1, 7, 1⟩ (by decide) (by decide) 7
      (by decide),
    truncation_rejected libsecp256k1 () sigOneOne ⟨4, 1, 7, 1⟩ (by decide) (by decide) 0
      (by decide)⟩

/-- C9, as stated, fails: in `30 26 02 21 00 ff..ff 02 01 01` the R field has declared
length 33 and is one `00` followed by 32 non-zero octets, S is the valid value 1, neither
value keeps more than 32 octets once its leading zero octets are dropped, and yet the
function returns `overflow = 1` with the placeholder: R is not below the group order,
so the compact-signature constructor rejects the buffer (line 159). -/
theorem overflow_flag_counterexample :
    parseFrame sigHighR = .ok (some ⟨4, 33, 39, 1⟩) ∧
    slice sigHighR 4 33 = 0x00 :: List.replicate 32 0xff ∧
    (stripZeros (slice sigHighR 4 33)).length = 32 ∧
    (stripZeros (slice sigHighR 39 1)).length = 1 ∧
    ecdsa_signature_parse_der_lax libsecp256k1 () sigHighR
      = .ok ⟨true, List.replicate 64 0, true⟩ := by
  decide!

/-- C9, amended. On an accepted input (lines 38-132 fix the frame `f`) the function
returns 1, and `overflow` is set exactly when the R or the S value keeps more than 32
octets once its leading zero octets are dropped or the compact-signature constructor
rejects the assembled 64-octet buffer. In particular, when the R value is one `00`
followed by 32 non-zero octets `w`, S keeps at most 32 octets and the constructor accepts
the buffer, `overflow` is clear and the signature is the one the constructor makes of `w`
followed by the padded S. -/
theorem overflow_flag_meaning {κ σ : Type} (P : Secp256k1 κ σ) (ctx : κ)
    (input : List Byte) (f : Frame) (hf : parseFrame input = .ok (some f)) :
    ∃ r, ecdsa_signature_parse_der_lax P ctx input = .ok r ∧ r.ret = true ∧
      (r.overflow = true ↔
        (32 < (stripZeros (slice input f.rpos f.rlen)).length ∨
         32 < (stripZeros (slice input f.spos f.slen)).length ∨
         (P.ecdsa_signature_parse_compact ctx
            (padLeft32 (stripZeros (slice input f.rpos f.rlen))
              ++ padLeft32 (stripZeros (slice input f.spos f.slen)))).1 = false)) ∧
      ∀ w : List Byte, w.length = 32 → (∀ b ∈ w, b ≠ 0) →
        slice input f.rpos f.rlen = 0 :: w →
        (stripZeros (slice input f.spos f.slen)).length ≤ 32 →
        (P.ecdsa_signature_parse_compact ctx
          (w ++ padLeft32 (stripZeros (slice input f.spos f.slen)))).1 = true →
        r.overflow = false ∧
        r.sig = (P.ecdsa_signature_parse_compact ctx
          (w ++ padLeft32 (stripZeros (slice input f.spos f.slen)))).2 := by
  refine ⟨_, parse_of_frame P ctx input f hf, resultOf_ret P ctx _ _, ?_, ?_⟩
  · unfold resultOf
    by_cases hov : 32 < (stripZeros (slice input f.rpos f.rlen)).length ∨
        32 < (stripZeros (slice input f.spos f.slen)).length
    · simp only [hov, if_true, true_iff]
      rcases hov with h | h
      · exact Or.inl h
      · exact Or.inr (Or.inl h)
    · simp only [hov, if_false]
      have h1 : ¬ (32 < (stripZeros (slice input f.rpos f.rlen)).length) := fun h => hov (Or.inl h)
      have h2 : ¬ (32 < (stripZeros (slice input f.spos f.slen)).length) := fun h => hov (Or.inr h)
      cases hc : (P.ecdsa_signature_parse_compact ctx
        (padLeft32 (stripZeros (slice input f.rpos f.rlen))
          ++ padLeft32 (stripZeros (slice input f.spos f.slen)))).1
      · simp
      · simp [h1, h2]
  · intro w hw hnz hR hS hacc
    have hstrip : stripZeros (slice input f.rpos f.rlen) = w := by
      rw [hR, stripZeros_cons_zero 0 w rfl, stripZeros_of_nonzero w hnz]
    have hpad : padLeft32 w = w := by unfold padLeft32; simp [hw]
    have hno : ¬ (32 < w.length ∨ 32 < (stripZeros (slice input f.spos f.slen)).length) := by
      omega
    unfold resultOf
    rw [hstrip, hpad]
    simp only [hno, if_false, hacc, if_true, and_self]

/-- C9 amended, on `30 26 02 21 00 11..11 02 01 01`: R is below the group order, the
flag is clear and the 32 octets `11` are the R half. -/
theorem overflow_flag_meaning_witness :
    (∃ r, ecdsa_signature_parse_der_lax libsecp256k1 ()
        ([0x30, 0x26, 0x02, 0x21, 0x00] ++ List.replicate 32 0x11 ++ [0x02, 0x01, 0x01]) = .ok r
      ∧ r.ret = true ∧ r.overflow = false ∧ r.sig.take 32 = List.replicate 32 0x11) ∧
    ∃ r, ecdsa_signature_parse_der_lax libsecp256k1 () sigHighR = .ok r ∧ r.ret = true ∧
      (r.overflow = true ↔
        (32 < (stripZeros (slice sigHighR 4 33)).length ∨
         32 < (stripZeros (slice sigHighR 39 1)).length ∨
         (libsecp256k1.ecdsa_signature_parse_compact ()
            (padLeft32 (stripZeros (slice sigHighR 4 33))
              ++ padLeft32 (stripZeros (slice sigHighR 39 1)))).1 = false)) ∧
      ∀ w : List Byte, w.length = 32 → (∀ b ∈ w, b ≠ 0) →
        slice sigHighR 4 33 = 0 :: w →
        (stripZeros (slice sigHighR 39 1)).length ≤ 32 →
        (libsecp256k1.ecdsa_signature_parse_compact ()
          (w ++ padLeft32 (stripZeros (slice sigHighR 39 1)))).1 = true →
        r.overflow = false ∧
        r.sig = (libsecp256k1.ecdsa_signature_parse_compact ()
          (w ++ padLeft32 (stripZeros (slice sigHighR 39 1)))).2 :=
  ⟨⟨⟨true, List.replicate 32 0x11 ++ beBytes 32 1, false⟩, by decide!, rfl, rfl, by decide!⟩,
    overflow_flag_meaning libsecp256k1 () sigHighR ⟨4, 33, 39, 1⟩ (by decide!)⟩

/-- C10. CheckLowS characterisation: with the verification context initialised, and
for primitives whose normalization reports a change exactly when the S component `sOf sig`
of the signature is above half the group order, `CheckLowS` returns a Boolean on every
input, and it is `true` exactly when the function `ecdsa_signature_parse_der_lax`
returns 1 and the S component of the parsed signature is at most half the group order,
that is, when normalization reports no change; it is `false` whenever the parser returns
0. -/
theorem checkLowS_characterisation {κ σ : Type} (P : Secp256k1 κ σ) (ctx : κ)
    (sOf : σ → Nat)
    (hnorm : ∀ sig, P.ecdsa_signature_normalize ctx sig = true ↔ groupOrder / 2 < sOf sig)
    (vchSig : List Byte) :
    ∃ r b, ecdsa_signature_parse_der_lax P ctx vchSig = .ok r ∧
      CheckLowS P (some ctx) vchSig = .ok (some b) ∧
      (b = true ↔ r.ret = true ∧ sOf r.sig ≤ groupOrder / 2) ∧
      (b = true ↔ r.ret = true ∧ P.ecdsa_signature_normalize ctx r.sig = false) ∧
      (r.ret = false → b = false) := by
  obtain ⟨r, hr⟩ := parse_total P ctx vchSig
  cases hret : r.ret
  · refine ⟨r, false, hr, ?_, by simp [hret], by simp [hret], fun _ => rfl⟩
    unfold CheckLowS
    simp only [hr, hret]
    rfl
  · refine ⟨r, !P.ecdsa_signature_normalize ctx r.sig, hr, ?_, ?_, ?_, ?_⟩
    · unfold CheckLowS
      simp only [hr, hret]
      rfl
    · have := hnorm r.sig
      cases hn : P.ecdsa_signature_normalize ctx r.sig
      · rw [hn] at this
        simp only [Bool.not_false, hret, true_and, true_iff]
        by_contra hc
        exact absurd (this.2 (by omega)) (by simp)
      · rw [hn] at this
        have := this.1 rfl
        simp only [Bool.not_true, hret, true_and]
        constructor
        · intro h; cases h
        · intro h; omega
    · cases hn : P.ecdsa_signature_normalize ctx r.sig <;> simp [hret]
    · intro h; rw [hret] at h; cases h

/-- C10, with the reference primitives, where the S component is the number in octets
`[32,64)`: `CheckLowS` is `true` on `30 06 02 01 01 02 01 01`. -/
theorem checkLowS_characterisation_witness :
    CheckLowS libsecp256k1 (some ()) sigOneOne = .ok (some true) ∧
    ∃ r b, ecdsa_signature_parse_der_lax libsecp256k1 () sigOneOne = .ok r ∧
      CheckLowS libsecp256k1 (some ()) sigOneOne = .ok (some b) ∧
      (b = true ↔ r.ret = true ∧ compactS r.sig ≤ groupOrder / 2) ∧
      (b = true ↔ r.ret = true ∧ libsecp256k1.ecdsa_signature_normalize () r.sig = false) ∧
      (r.ret = false → b = false) :=
  ⟨by decide!, checkLowS_characterisation libsecp256k1 () compactS
    (by intro sig; simp [libsecp256k1]) sigOneOne⟩

/-- C12. Trailing garbage is tolerated: on an accepted input (lines 38-132 fix the frame
`f`), the function returns the same result when any octets `t` are put behind the
input: return value 1, the same overflow flag, the same signature. -/
theorem trailing_garbage_tolerated {κ σ : Type} (P : Secp256k1 κ σ) (ctx : κ)
    (input : List Byte) (f : Frame) (hf : parseFrame input = .ok (some f)) (t : List Byte) :
    ∃ r, ecdsa_signature_parse_der_lax P ctx input = .ok r ∧ r.ret = true ∧
      ecdsa_signature_parse_der_lax P ctx (input ++ t) = .ok r := by
  obtain ⟨sl, lr, vr, ls, vs, t0, hsl, hlr, hls, he, _⟩ := parseFrame_some input f hf
  subst he
  refine ⟨resultOf P ctx vr vs, parse_framed P ctx sl lr vr ls vs t0 hsl hlr hls,
    resultOf_ret P ctx vr vs, ?_⟩
  rw [framed_append]
  exact parse_framed P ctx sl lr vr ls vs (t0 ++ t) hsl hlr hls

/-- C12, on `30 06 02 01 01 02 01 01` followed by `de ad 02`. -/
theorem trailing_garbage_tolerated_witness :
    (∃ r, ecdsa_signature_parse_der_lax libsecp256k1 () sigOneOne = .ok r ∧ r.ret = true ∧
      ecdsa_signature_parse_der_lax libsecp256k1 () (sigOneOne ++ [0xde, 0xad, 0x02]) = .ok r) ∧
    ecdsa_signature_parse_der_lax libsecp256k1 () (sigOneOne ++ [0xde, 0xad, 0x02])
      = .ok ⟨true, beBytes 32 1 ++ beBytes 32 1, false⟩ :=
  ⟨trailing_garbage_tolerated libsecp256k1 () sigOneOne ⟨4, 1, 7, 1⟩ (by decide)
    [0xde, 0xad, 0x02], by decide!⟩

/-- C15. Constructor rejection counts as overflow: on a well-framed input (lines 38-132
fix the frame `f`) whose R and S values each keep at most 32 octets once their leading
zero octets are dropped, when the compact-signature constructor rejects the assembled
64-octet buffer the function returns 1 with `overflow = 1` and the canonical placeholder
as signature, not the copied octets. -/
theorem constructor_rejection_is_overflow {κ σ : Type} (P : Secp256k1 κ σ) (ctx : κ)
    (input : List Byte) (f : Frame) (hf : parseFrame input = .ok (some f))
    (hr : (stripZeros (slice input f.rpos f.rlen)).length ≤ 32)
    (hs : (stripZeros (slice input f.spos f.slen)).length ≤ 32)
    (hrej : (P.ecdsa_signature_parse_compact ctx
      (padLeft32 (stripZeros (slice input f.rpos f.rlen))
        ++ padLeft32 (stripZeros (slice input f.spos f.slen)))).1 = false) :
    assemble input f = .ok (padLeft32 (stripZeros (slice input f.rpos f.rlen))
        ++ padLeft32 (stripZeros (slice input f.spos f.slen)), false) ∧
    ecdsa_signature_parse_der_lax P ctx input
      = .ok ⟨true, (P.ecdsa_signature_parse_compact ctx (List.replicate 64 0)).2, true⟩ := by
  obtain ⟨hb1, hbs⟩ := parseFrame_bounds input f hf
  refine ⟨assemble_fits input f (by omega) hbs hr hs, ?_⟩
  have hno : ¬ (32 < (stripZeros (slice input f.rpos f.rlen)).length ∨
      32 < (stripZeros (slice input f.spos f.slen)).length) := by omega
  rw [parse_of_frame P ctx input f hf]
  unfold resultOf placeholder
  simp only [hno, if_false, hrej]
  rfl

/-- C15, on `30 26 02 21 00 ff..ff 02 01 01`: R is not below the group order. -/
theorem constructor_rejection_is_overflow_witness :
    assemble sigHighR ⟨4, 33, 39, 1⟩ = .ok (padLeft32 (stripZeros (slice sigHighR 4 33))
        ++ padLeft32 (stripZeros (slice sigHighR 39 1)), false) ∧
    ecdsa_signature_parse_der_lax libsecp256k1 () sigHighR
      = .ok ⟨true, (libsecp256k1.ecdsa_signature_parse_compact () (List.replicate 64 0)).2,
          true⟩ :=
  constructor_rejection_is_overflow libsecp256k1 () sigHighR ⟨4, 33, 39, 1⟩ (by decide!)
    (by decide!) (by decide!) (by decide!)

/-- C20. Acceptance depends on framing only: an accepted input (lines 38-132 fix the
frame `f`) reads as `30 sl 02 lr R 02 ls S t` with the R and S values of the frame, and
with any octets of the same lengths in the place of R and of S the framing fixes the same
frame and the function returns 1. -/
theorem acceptance_depends_on_framing {κ σ : Type} (P : Secp256k1 κ σ) (ctx : κ)
    (input : List Byte) (f : Frame) (hf : parseFrame input = .ok (some f)) :
    ∃ sl lr ls t,
      input = framed sl lr (slice input f.rpos f.rlen) ls (slice input f.spos f.slen) t ∧
      ∀ vr vs : List Byte, vr.length = f.rlen → vs.length = f.slen →
        parseFrame (framed sl lr vr ls vs t) = .ok (some f) ∧
        ∃ r, ecdsa_signature_parse_der_lax P ctx (framed sl lr vr ls vs t) = .ok r ∧
          r.ret = true := by
  obtain ⟨sl, lr, vr0, ls, vs0, t, hsl, hlr, hls, he, hfr⟩ := parseFrame_some input f hf
  subst he hfr
  simp only [frameOf, slice_framed_r, slice_framed_s]
  refine ⟨sl, lr, ls, t, rfl, ?_⟩
  intro vr vs hvr hvs
  have hlr2 : decodeLength lr = some vr.length := by rw [hvr]; exact hlr
  have hls2 : decodeLength ls = some vs.length := by rw [hvs]; exact hls
  refine ⟨?_, resultOf P ctx vr vs, parse_framed P ctx sl lr vr ls vs t hsl hlr2 hls2,
    resultOf_ret P ctx vr vs⟩
  rw [parseFrame_framed sl lr vr ls vs t hsl hlr2 hls2]
  simp only [frameOf, hvr, hvs]

/-- C20, on `30 06 02 01 01 02 01 01`: for instance `30 06 02 01 ff 02 01 00` is
accepted as well. -/
theorem acceptance_depends_on_framing_witness :
    (∃ sl lr ls t,
      sigOneOne = framed sl lr (slice sigOneOne 4 1) ls (slice sigOneOne 7 1) t ∧
      ∀ vr vs : List Byte, vr.length = 1 → vs.length = 1 →
        parseFrame (framed sl lr vr ls vs t) = .ok (some ⟨4, 1, 7, 1⟩) ∧
        ∃ r, ecdsa_signature_parse_der_lax libsecp256k1 () (framed sl lr vr ls vs t) = .ok r ∧
          r.ret = true) ∧
    ecdsa_signature_parse_der_lax libsecp256k1 () [0x30, 0x06, 0x02, 0x01, 0xff, 0x02, 0x01, 0x00]
      = .ok ⟨true, beBytes 32 255 ++ beBytes 32 0, false⟩ :=
  ⟨acceptance_depends_on_framing libsecp256k1 () sigOneOne ⟨4, 1, 7, 1⟩ (by decide),
    by decide!⟩

/-! ### Length fields -/

theorem isSequenceLength_unique (sl sl0 rest rest0 : List Byte)
    (hsl : isSequenceLength sl = true) (hsl0 : isSequenceLength sl0 = true)
    (he : sl ++ rest = sl0 ++ rest0) : sl = sl0 ∧ rest = rest0 := by
  cases sl with
  | nil => simp [isSequenceLength] at hsl
  | cons b lb =>
    cases sl0 with
    | nil => simp [isSequenceLength] at hsl0
    | cons b0 lb0 =>
      have hb : b = b0 := by
        simp only [List.cons_append, List.cons.injEq] at he
        exact he.1
      subst hb
      have hlen : (b :: lb).length = (b :: lb0).length := by
        by_cases h : b.val < 128
        · simp only [isSequenceLength, h, if_true, beq_iff_eq] at hsl hsl0
          simp [hsl, hsl0]
        · simp only [isSequenceLength, h, if_false, beq_iff_eq] at hsl hsl0
          simp [hsl, hsl0]
      exact List.append_inj he hlen

theorem parse_sequence_length_swap {κ σ : Type} (P : Secp256k1 κ σ) (ctx : κ)
    (sl sl' rest : List Byte) (hsl : isSequenceLength sl = true)
    (hsl' : isSequenceLength sl' = true) (f : Frame)
    (hf : parseFrame (0x30 :: (sl ++ rest)) = .ok (some f)) :
    ecdsa_signature_parse_der_lax P ctx (0x30 :: (sl' ++ rest))
      = ecdsa_signature_parse_der_lax P ctx (0x30 :: (sl ++ rest)) := by
  obtain ⟨sl0, lr, vr, ls, vs, t, hsl0, hlr, hls, he, _⟩ := parseFrame_some _ f hf
  unfold framed at he
  simp only [List.cons.injEq, true_and] at he
  obtain ⟨h1, h2⟩ := isSequenceLength_unique sl sl0 rest _ hsl hsl0 he
  subst h1 h2
  have e1 : (0x30 : Byte) :: (sl ++ 2 :: (lr ++ (vr ++ 2 :: (ls ++ (vs ++ t)))))
      = framed sl lr vr ls vs t := rfl
  have e2 : (0x30 : Byte) :: (sl' ++ 2 :: (lr ++ (vr ++ 2 :: (ls ++ (vs ++ t)))))
      = framed sl' lr vr ls vs t := rfl
  rw [e1, e2, parse_framed P ctx sl lr vr ls vs t hsl hlr hls,
    parse_framed P ctx sl' lr vr ls vs t hsl' hlr hls]

/-- The octets of the sequence length field have no influence on the result. -/
theorem parse_sequence_length_irrelevant {κ σ : Type} (P : Secp256k1 κ σ) (ctx : κ)
    (sl sl' rest : List Byte) (hsl : isSequenceLength sl = true)
    (hsl' : isSequenceLength sl' = true) :
    ecdsa_signature_parse_der_lax P ctx (0x30 :: (sl ++ rest))
      = ecdsa_signature_parse_der_lax P ctx (0x30 :: (sl' ++ rest)) := by
  rcases parseFrame_cases (0x30 :: (sl ++ rest)) with h | ⟨sl0, lr, vr, ls, vs, t, h0, hlr, hls, he⟩
  · rcases parseFrame_cases (0x30 :: (sl' ++ rest)) with h' | ⟨sl0, lr, vr, ls, vs, t, h0, hlr, hls, he⟩
    · rw [parse_of_no_frame P ctx _ h, parse_of_no_frame P ctx _ h']
    · have hf := parseFrame_framed sl0 lr vr ls vs t h0 hlr hls
      rw [← he] at hf
      exact parse_sequence_length_swap P ctx sl' sl rest hsl' hsl _ hf
  · have hf := parseFrame_framed sl0 lr vr ls vs t h0 hlr hls
    rw [← he] at hf
    exact (parse_sequence_length_swap P ctx sl sl' rest hsl hsl' _ hf).symm

theorem parse_sequence_truncated {κ σ : Type} (P : Secp256k1 κ σ) (ctx : κ)
    (c : Byte) (tail : List Byte) (hc : 128 ≤ c.val) (ht : tail.length < c.val - 128) :
    ecdsa_signature_parse_der_lax P ctx (0x30 :: c :: tail)
      = .ok ⟨false, placeholder P ctx, false⟩ := by
  apply parse_of_no_frame
  have h := parseSequenceHeader_cons 0x30 c tail
  have h30 : ((0x30 : Byte).val ≠ 0x30) = False := by
    have : (0x30 : Byte).val = 0x30 := rfl
    simp [this]
  have h1 : ¬ (c.val < 128) := by omega
  have h2 : c.val - 128 > tail.length := ht
  simp only [h30, h1, h2, if_true, if_false] at h
  unfold parseFrame
  simp only [h]

/-- C16. The sequence length is never validated: two inputs that differ only in the
value of a short-form sequence length octet (both below `0x80`), or only in the contents
of the octets of a long-form sequence length with the same byte-count (all of them
present, or the input ending inside them), give the same result: same return value,
same overflow flag, same signature. -/
theorem sequence_length_not_validated {κ σ : Type} (P : Secp256k1 κ σ) (ctx : κ) :
    (∀ (b b' : Byte) (rest : List Byte), b.val < 128 → b'.val < 128 →
      ecdsa_signature_parse_der_lax P ctx (0x30 :: b :: rest)
        = ecdsa_signature_parse_der_lax P ctx (0x30 :: b' :: rest)) ∧
    (∀ (c : Byte) (lb lb' rest : List Byte), 128 ≤ c.val → lb.length = lb'.length →
      (lb.length = c.val - 128 ∨ (lb.length < c.val - 128 ∧ rest = [])) →
      ecdsa_signature_parse_der_lax P ctx (0x30 :: c :: (lb ++ rest))
        = ecdsa_signature_parse_der_lax P ctx (0x30 :: c :: (lb' ++ rest))) := by
  constructor
  · intro b b' rest hb hb'
    exact parse_sequence_length_irrelevant P ctx [b] [b'] rest
      (by simp [isSequenceLength, hb]) (by simp [isSequenceLength, hb'])
  · intro c lb lb' rest hc hlen hcase
    rcases hcase with h | ⟨h, hrest⟩
    · have h1 : ¬ (c.val < 128) := by omega
      exact parse_sequence_length_irrelevant P ctx (c :: lb) (c :: lb') rest
        (by simp [isSequenceLength, h1, h]) (by simp [isSequenceLength, h1, ← hlen, h])
    · subst hrest
      rw [List.append_nil, List.append_nil,
        parse_sequence_truncated P ctx c lb hc h,
        parse_sequence_truncated P ctx c lb' hc (by omega)]

/-- C16, on `30 06 02 01 01 02 01 01` against `30 7f 02 01 01 02 01 01`, and on
`30 82 00 06 ...` against `30 82 ff ff ...`. -/
theorem sequence_length_not_validated_witness :
    ecdsa_signature_parse_der_lax libsecp256k1 () (0x30 :: 0x06 :: [0x02, 0x01, 0x01, 0x02, 0x01, 0x01])
      = ecdsa_signature_parse_der_lax libsecp256k1 ()
          (0x30 :: 0x7f :: [0x02, 0x01, 0x01, 0x02, 0x01, 0x01]) ∧
    ecdsa_signature_parse_der_lax libsecp256k1 ()
        (0x30 :: 0x82 :: ([0x00, 0x06] ++ [0x02, 0x01, 0x01, 0x02, 0x01, 0x01]))
      = ecdsa_signature_parse_der_lax libsecp256k1 ()
          (0x30 :: 0x82 :: ([0xff, 0xff] ++ [0x02, 0x01, 0x01, 0x02, 0x01, 0x01])) ∧
    ecdsa_signature_parse_der_lax libsecp256k1 ()
        (0x30 :: 0x82 :: ([0xff, 0xff] ++ [0x02, 0x01, 0x01, 0x02, 0x01, 0x01]))
      = .ok ⟨true, beBytes 32 1 ++ beBytes 32 1, false⟩ :=
  ⟨(sequence_length_not_validated libsecp256k1 ()).1 0x06 0x7f _ (by decide) (by decide),
    (sequence_length_not_validated libsecp256k1 ()).2 0x82 [0x00, 0x06] [0xff, 0xff] _
      (by decide) rfl (Or.inl (by decide)),
    by decide!⟩

theorem decodeLength_long (c : Byte) (lb : List Byte) (hc : 128 ≤ c.val)
    (hlen : lb.length = c.val - 128) (h4 : (stripZeros lb).length < 4) :
    decodeLength (c :: lb) = some (beValue lb) := by
  have h1 : ¬ (c.val < 128) := by omega
  have h2 : lb.length = c.val - 128 ∧ (stripZeros lb).length < 4 := ⟨hlen, h4⟩
  simp only [decodeLength, h1, if_false, h2, and_self, if_true, beValue_stripZeros]

/-- C17. Long-form integer lengths decode big-endian: for a length octet `c = 0x80 + k`
with `k` in `{1, 2, 3}` followed by `k` length octets `lb` (leading zero octets allowed),
the integer header of lines 57-92 decodes the unsigned big-endian value of `lb`, which is
below `2 ^ 24` (and returns 0 when fewer octets than that value follow); consequently an
input `30 sl 02 l R 02 ls S t` with a short-form R length `l` is accepted, and writing
the R length as `c lb` of the same value leaves the result unchanged, and likewise for a
short-form S length. -/
theorem long_form_length_big_endian {κ σ : Type} (P : Secp256k1 κ σ) (ctx : κ)
    (c : Byte) (lb : List Byte) (hlo : 129 ≤ c.val) (hhi : c.val ≤ 131)
    (hlen : lb.length = c.val - 128) :
    beValue lb < 2 ^ 24 ∧
    (∀ pre rest : List Byte,
      parseIntegerHeader (pre ++ 0x02 :: c :: (lb ++ rest)) pre.length
        = .ok (if beValue lb > rest.length then none
               else some (pre.length + 2 + lb.length, beValue lb))) ∧
    (∀ (sl vr ls vs t : List Byte) (l : Byte), isSequenceLength sl = true →
      l.val < 128 → l.val = vr.length → decodeLength ls = some vs.length →
      beValue lb = l.val →
      ∃ r, ecdsa_signature_parse_der_lax P ctx (framed sl [l] vr ls vs t) = .ok r ∧
        r.ret = true ∧
        ecdsa_signature_parse_der_lax P ctx (framed sl (c :: lb) vr ls vs t) = .ok r) ∧
    (∀ (sl lr vr vs t : List Byte) (l : Byte), isSequenceLength sl = true →
      decodeLength lr = some vr.length → l.val < 128 → l.val = vs.length →
      beValue lb = l.val →
      ∃ r, ecdsa_signature_parse_der_lax P ctx (framed sl lr vr [l] vs t) = .ok r ∧
        r.ret = true ∧
        ecdsa_signature_parse_der_lax P ctx (framed sl lr vr (c :: lb) vs t) = .ok r) := by
  have hs4 : (stripZeros lb).length < 4 := by
    have := stripZeros_length_le lb
    omega
  have hdec := decodeLength_long c lb (by omega) hlen hs4
  refine ⟨decodeLength_lt _ _ hdec, ?_, ?_, ?_⟩
  · intro pre rest
    rw [parseIntegerHeader_long pre lb rest c (by omega) hlen, beValue_stripZeros]
    have h4 : ¬ ((stripZeros lb).length ≥ 4) := by omega
    simp only [h4, if_false]
  · intro sl vr ls vs t l hsl hl hlv hls hval
    have hshort : decodeLength [l] = some vr.length := by
      rw [← hlv]; simp [decodeLength, hl]
    refine ⟨resultOf P ctx vr vs, parse_framed P ctx sl [l] vr ls vs t hsl hshort hls,
      resultOf_ret P ctx vr vs, ?_⟩
    exact parse_framed P ctx sl (c :: lb) vr ls vs t hsl (by rw [hdec, hval, hlv]) hls
  · intro sl lr vr vs t l hsl hlr hl hlv hval
    have hshort : decodeLength [l] = some vs.length := by
      rw [← hlv]; simp [decodeLength, hl]
    refine ⟨resultOf P ctx vr vs, parse_framed P ctx sl lr vr [l] vs t hsl hlr hshort,
      resultOf_ret P ctx vr vs, ?_⟩
    exact parse_framed P ctx sl lr vr (c :: lb) vs t hsl hlr (by rw [hdec, hval, hlv])

/-- C17, for the length field `82 00 01`: `30 06 02 82 00 01 01 02 01 01` gives the
result of `30 06 02 01 01 02 01 01`. -/
theorem long_form_length_big_endian_witness :
    (beValue ([0x00, 0x01] : List Byte) < 2 ^ 24 ∧
    (∀ pre rest : List Byte,
      parseIntegerHeader (pre ++ 0x02 :: 0x82 :: ([0x00, 0x01] ++ rest)) pre.length
        = .ok (if beValue ([0x00, 0x01] : List Byte) > rest.length then none
               else some (pre.length + 2 + ([0x00, 0x01] : List Byte).length,
                 beValue ([0x00, 0x01] : List Byte)))) ∧
    (∀ (sl vr ls vs t : List Byte) (l : Byte), isSequenceLength sl = true →
      l.val < 128 → l.val = vr.length → decodeLength ls = some vs.length →
      beValue ([0x00, 0x01] : List Byte) = l.val →
      ∃ r, ecdsa_signature_parse_der_lax libsecp256k1 () (framed sl [l] vr ls vs t) = .ok r ∧
        r.ret = true ∧
        ecdsa_signature_parse_der_lax libsecp256k1 ()
          (framed sl (0x82 :: [0x00, 0x01]) vr ls vs t) = .ok r) ∧
    (∀ (sl lr vr vs t : List Byte) (l : Byte), isSequenceLength sl = true →
      decodeLength lr = some vr.length → l.val < 128 → l.val = vs.length →
      beValue ([0x00, 0x01] : List Byte) = l.val →
      ∃ r, ecdsa_signature_parse_der_lax libsecp256k1 () (framed sl lr vr [l] vs t) = .ok r ∧
        r.ret = true ∧
        ecdsa_signature_parse_der_lax libsecp256k1 ()
          (framed sl lr vr (0x82 :: [0x00, 0x01]) vs t) = .ok r)) ∧
    ecdsa_signature_parse_der_lax libsecp256k1 ()
        [0x30, 0x06, 0x02, 0x82, 0x00, 0x01, 0x01, 0x02, 0x01, 0x01]
      = ecdsa_signature_parse_der_lax libsecp256k1 () sigOneOne :=
  ⟨long_form_length_big_endian libsecp256k1 () 0x82 [0x00, 0x01] (by decide) (by decide)
    (by decide), by decide!⟩

/-- C18, as stated, fails: in `30 85 01 02 03 04 05 02 01 01 02 01 01` the sequence
length octet is `85`, long-form with byte-count 5, and the function accepts the input:
lines 49-55 skip the five octets without comparing the count with 4. -/
theorem long_sequence_length_counterexample :
    sigLongSequence[1]? = some 0x85 ∧ 4 ≤ (0x85 : Byte).val - 128 ∧
    ecdsa_signature_parse_der_lax libsecp256k1 () sigLongSequence
      = .ok ⟨true, beBytes 32 1 ++ beBytes 32 1, false⟩ := by
  decide!

/-- C18, amended. When the sequence length octet `c` is long-form, the function returns 0
if fewer octets follow it than its byte-count; the byte-count itself is not limited:
when all the announced octets `lb` are present, whatever their number, and well-formed
R and S follow, the function returns 1. -/
theorem long_sequence_length_policy {κ σ : Type} (P : Secp256k1 κ σ) (ctx : κ)
    (c : Byte) (hc : 128 ≤ c.val) :
    (∀ tail : List Byte, tail.length < c.val - 128 →
      ecdsa_signature_parse_der_lax P ctx (0x30 :: c :: tail)
        = .ok ⟨false, placeholder P ctx, false⟩) ∧
    (∀ lb lr vr ls vs t : List Byte, lb.length = c.val - 128 →
      decodeLength lr = some vr.length → decodeLength ls = some vs.length →
      ∃ r, ecdsa_signature_parse_der_lax P ctx (framed (c :: lb) lr vr ls vs t) = .ok r ∧
        r.ret = true) := by
  constructor
  · intro tail ht
    exact parse_sequence_truncated P ctx c tail hc ht
  · intro lb lr vr ls vs t hlb hlr hls
    have h1 : ¬ (c.val < 128) := by omega
    exact ⟨resultOf P ctx vr vs,
      parse_framed P ctx (c :: lb) lr vr ls vs t (by simp [isSequenceLength, h1, hlb]) hlr hls,
      resultOf_ret P ctx vr vs⟩

/-- C18 amended, for the sequence length octet `85`. -/
theorem long_sequence_length_policy_witness :
    (∀ tail : List Byte, tail.length < (0x85 : Byte).val - 128 →
      ecdsa_signature_parse_der_lax libsecp256k1 () (0x30 :: 0x85 :: tail)
        = .ok ⟨false, placeholder libsecp256k1 (), false⟩) ∧
    (∀ lb lr vr ls vs t : List Byte, lb.length = (0x85 : Byte).val - 128 →
      decodeLength lr = some vr.length → decodeLength ls = some vs.length →
      ∃ r, ecdsa_signature_parse_der_lax libsecp256k1 () (framed (0x85 :: lb) lr vr ls vs t)
          = .ok r ∧ r.ret = true) :=
  long_sequence_length_policy libsecp256k1 () 0x85 (by decide)

/-! ### The low-S check -/

theorem compactS_padded (r v : List Byte) (hr : r.length ≤ 32) (hv : v.length ≤ 32) :
    compactS (padLeft32 r ++ padLeft32 v) = beValue v := by
  unfold compactS
  rw [drop_append_of_length _ _ 32 (padLeft32_length r hr)]
  have : (padLeft32 v).take 32 = padLeft32 v := by
    apply List.take_of_length_le
    rw [padLeft32_length v hv]
  rw [this, beValue_padLeft32]

theorem compactS_take (b : List Byte) : compactS (b.take 64) = compactS b := by
  unfold compactS
  have : (b.take 64).drop 32 = (b.drop 32).take 32 := by
    rw [List.drop_take]
  rw [this, List.take_take]
  simp

theorem libsecp256k1_normalize (sig : List Byte) :
    libsecp256k1.ecdsa_signature_normalize () sig = true ↔ groupOrder / 2 < compactS sig := by
  simp [libsecp256k1]

theorem libsecp256k1_compactS (b : List Byte)
    (h : (libsecp256k1.ecdsa_signature_parse_compact () b).1 = true) :
    compactS (libsecp256k1.ecdsa_signature_parse_compact () b).2 = compactS b := by
  unfold libsecp256k1 at h ⊢
  by_cases hc : compactR b < groupOrder ∧ compactS b < groupOrder
  · simp only [hc, and_self, if_true]
    exact compactS_take b
  · simp only [hc, if_false] at h
    cases h

theorem checkLowS_of_result {κ σ : Type} (P : Secp256k1 κ σ) (ctx : κ) (input : List Byte)
    (sig : σ) (ov : Bool)
    (h : ecdsa_signature_parse_der_lax P ctx input = .ok ⟨true, sig, ov⟩) :
    CheckLowS P (some ctx) input = .ok (some (!P.ecdsa_signature_normalize ctx sig)) := by
  unfold CheckLowS
  simp only [h]
  rfl

/-- C11, as stated, fails: in `sigHighSLongR` the framing is well-formed and the S field
is the group order minus one, above half the group order, yet `CheckLowS` returns true,
because R keeps 33 octets and the function hands back the placeholder; and in `sigOrderS`
(R = 1) the S field is the group order itself, the constructor rejects it, and `CheckLowS`
returns true as well. -/
theorem high_S_counterexample :
    (parseFrame sigHighSLongR = .ok (some ⟨4, 33, 39, 32⟩) ∧
      groupOrder / 2 < beValue (slice sigHighSLongR 39 32) ∧
      CheckLowS libsecp256k1 (some ()) sigHighSLongR = .ok (some true)) ∧
    (parseFrame sigOrderS = .ok (some ⟨4, 1, 7, 32⟩) ∧
      groupOrder / 2 < beValue (slice sigOrderS 7 32) ∧
      CheckLowS libsecp256k1 (some ()) sigOrderS = .ok (some true)) := by
  decide!

/-- C11, amended. With the verification context initialised, and for primitives whose
normalization reports a change exactly when the S component `sOf sig` is above half the
group order and whose constructor keeps the S half of an accepted buffer: on a
well-framed input (lines 38-132 fix the frame `f`) on which no overflow arises, that is,
R and S each keep at most 32 octets once their leading zero octets are dropped and the
constructor accepts the assembled buffer, `CheckLowS` returns false when the S field,
read as an unsigned big-endian number, is above half the group order. -/
theorem high_S_rejected {κ σ : Type} (P : Secp256k1 κ σ) (ctx : κ) (sOf : σ → Nat)
    (hnorm : ∀ sig, P.ecdsa_signature_normalize ctx sig = true ↔ groupOrder / 2 < sOf sig)
    (hsOf : ∀ b, (P.ecdsa_signature_parse_compact ctx b).1 = true →
      sOf (P.ecdsa_signature_parse_compact ctx b).2 = compactS b)
    (input : List Byte) (f : Frame) (hf : parseFrame input = .ok (some f))
    (hr : (stripZeros (slice input f.rpos f.rlen)).length ≤ 32)
    (hs : (stripZeros (slice input f.spos f.slen)).length ≤ 32)
    (hacc : (P.ecdsa_signature_parse_compact ctx
      (padLeft32 (stripZeros (slice input f.rpos f.rlen))
        ++ padLeft32 (stripZeros (slice input f.spos f.slen)))).1 = true)
    (hhigh : groupOrder / 2 < beValue (slice input f.spos f.slen)) :
    CheckLowS P (some ctx) input = .ok (some false) := by
  have hno : ¬ (32 < (stripZeros (slice input f.rpos f.rlen)).length ∨
      32 < (stripZeros (slice input f.spos f.slen)).length) := by omega
  have hrun := parse_of_frame P ctx input f hf
  unfold resultOf at hrun
  simp only [hno, if_false, hacc, if_true] at hrun
  rw [checkLowS_of_result P ctx input _ _ hrun]
  have hS := hsOf _ hacc
  rw [compactS_padded _ _ hr hs, beValue_stripZeros] at hS
  have := (hnorm (P.ecdsa_signature_parse_compact ctx
      (padLeft32 (stripZeros (slice input f.rpos f.rlen))
        ++ padLeft32 (stripZeros (slice input f.spos f.slen)))).2).2 (by rw [hS]; exact hhigh)
  rw [this]
  rfl

/-- C11 amended, on `sigHighS`: R = 1, S the group order minus one. -/
theorem high_S_rejected_witness :
    CheckLowS libsecp256k1 (some ()) sigHighS = .ok (some false) :=
  high_S_rejected libsecp256k1 () compactS libsecp256k1_normalize libsecp256k1_compactS
    sigHighS ⟨4, 1, 7, 32⟩ (by decide!) (by decide!) (by decide!) (by decide!) (by decide!)

/-- C19. CheckLowS accepts overflowed signatures: with the verification context
initialised, and for primitives whose normalization reports a change exactly when the S
component `sOf sig` is above half the group order and whose placeholder has S component
0: on a well-framed input (lines 38-132 fix the frame `f`) on which the function reports
overflow, because R or S keeps more than 32 octets once its leading zero octets are
dropped or because the constructor rejects the assembled buffer, the function hands
back the placeholder and `CheckLowS` returns true. -/
theorem checkLowS_accepts_overflow {κ σ : Type} (P : Secp256k1 κ σ) (ctx : κ) (sOf : σ → Nat)
    (hnorm : ∀ sig, P.ecdsa_signature_normalize ctx sig = true ↔ groupOrder / 2 < sOf sig)
    (hzero : sOf (placeholder P ctx) = 0)
    (input : List Byte) (f : Frame) (hf : parseFrame input = .ok (some f))
    (hov : 32 < (stripZeros (slice input f.rpos f.rlen)).length ∨
      32 < (stripZeros (slice input f.spos f.slen)).length ∨
      (P.ecdsa_signature_parse_compact ctx
        (padLeft32 (stripZeros (slice input f.rpos f.rlen))
          ++ padLeft32 (stripZeros (slice input f.spos f.slen)))).1 = false) :
    ecdsa_signature_parse_der_lax P ctx input = .ok ⟨true, placeholder P ctx, true⟩ ∧
    CheckLowS P (some ctx) input = .ok (some true) := by
  have hrun : ecdsa_signature_parse_der_lax P ctx input = .ok ⟨true, placeholder P ctx, true⟩ := by
    rw [parse_of_frame P ctx input f hf]
    unfold resultOf
    by_cases hlen : 32 < (stripZeros (slice input f.rpos f.rlen)).length ∨
        32 < (stripZeros (slice input f.spos f.slen)).length
    · simp only [hlen, if_true]
    · have hrej : (P.ecdsa_signature_parse_compact ctx
          (padLeft32 (stripZeros (slice input f.rpos f.rlen))
            ++ padLeft32 (stripZeros (slice input f.spos f.slen)))).1 = false := by
        rcases hov with h | h | h
        · exact absurd (Or.inl h) hlen
        · exact absurd (Or.inr h) hlen
        · exact h
      simp only [hlen, if_false, hrej]
      rfl
  refine ⟨hrun, ?_⟩
  rw [checkLowS_of_result P ctx input _ _ hrun]
  have hn : P.ecdsa_signature_normalize ctx (placeholder P ctx) = false := by
    cases h : P.ecdsa_signature_normalize ctx (placeholder P ctx)
    · rfl
    · have := (hnorm _).1 h
      rw [hzero] at this
      exact absurd this (Nat.not_lt_zero _)
  rw [hn]
  rfl

/-- C19, on `30 26 02 21 00 ff..ff 02 01 01` (the constructor rejects R) with the
reference primitives. -/
theorem checkLowS_accepts_overflow_witness :
    ecdsa_signature_parse_der_lax libsecp256k1 () sigHighR
      = .ok ⟨true, placeholder libsecp256k1 (), true⟩ ∧
    CheckLowS libsecp256k1 (some ()) sigHighR = .ok (some true) :=
  checkLowS_accepts_overflow libsecp256k1 () compactS libsecp256k1_normalize (by decide!)
    sigHighR ⟨4, 33, 39, 1⟩ (by decide!) (Or.inr (Or.inr (by decide!)))

/-! ### The x-only key operations -/

theorem fromBytes_keydata (bytes : List Byte) (k : XOnlyPubKey)
    (h : XOnlyPubKey.fromBytes bytes = some k) : k.m_keydata = bytes ∧ bytes.length = 32 := by
  unfold XOnlyPubKey.fromBytes at h
  by_cases hl : bytes.length = 32
  · simp only [hl, if_true, Option.some.injEq] at h
    rw [← h]
    exact ⟨rfl, hl⟩
  · simp [hl] at h

/-- C14. X-only key operations fail closed: with the primitives as parameters, for a key
made of 32 octets, any message and a signature of 64 octets, `VerifySchnorr` returns
false when the key parse primitive fails on the key and otherwise exactly the result of
the Schnorr verification primitive on the signature, the message and the parsed key; and
for an output key and a base key of 32 octets, any hash and parity,
`CheckPayToContract` returns false when the key parse primitive fails on the base key and
otherwise exactly the result of the tweak-add-check primitive called with the output
key, the parity, the parsed base key and the hash. -/
theorem xonly_operations_fail_closed {κ π : Type} (X : Secp256k1XOnly κ π) (ctx : Option κ)
    (keyBytes outputBytes baseBytes msg sigbytes hash : List Byte) (parity : Bool)
    (key outputKey baseKey : XOnlyPubKey)
    (hkey : XOnlyPubKey.fromBytes keyBytes = some key)
    (hout : XOnlyPubKey.fromBytes outputBytes = some outputKey)
    (hbase : XOnlyPubKey.fromBytes baseBytes = some baseKey)
    (hsig : sigbytes.length = 64) :
    ((X.xonly_pubkey_parse ctx keyBytes).1 = false →
      XOnlyPubKey.VerifySchnorr X ctx key msg sigbytes = some false) ∧
    ((X.xonly_pubkey_parse ctx keyBytes).1 = true →
      XOnlyPubKey.VerifySchnorr X ctx key msg sigbytes
        = some (X.schnorrsig_verify ctx sigbytes msg (X.xonly_pubkey_parse ctx keyBytes).2)) ∧
    ((X.xonly_pubkey_parse ctx baseBytes).1 = false →
      XOnlyPubKey.CheckPayToContract X ctx outputKey baseKey hash parity = false) ∧
    ((X.xonly_pubkey_parse ctx baseBytes).1 = true →
      XOnlyPubKey.CheckPayToContract X ctx outputKey baseKey hash parity
        = X.xonly_pubkey_tweak_add_check ctx outputBytes parity
            (X.xonly_pubkey_parse ctx baseBytes).2 hash) := by
  obtain ⟨hk, _⟩ := fromBytes_keydata keyBytes key hkey
  obtain ⟨ho, _⟩ := fromBytes_keydata outputBytes outputKey hout
  obtain ⟨hb, _⟩ := fromBytes_keydata baseBytes baseKey hbase
  have hne : ¬ (sigbytes.length ≠ 64) := by simp [hsig]
  refine ⟨?_, ?_, ?_, ?_⟩
  · intro h
    unfold XOnlyPubKey.VerifySchnorr
    simp only [hne, if_false, hk, h, Bool.not_false, if_true]
  · intro h
    unfold XOnlyPubKey.VerifySchnorr
    simp only [hne, if_false, hk, h, Bool.not_true]
    rfl
  · intro h
    unfold XOnlyPubKey.CheckPayToContract
    simp only [hb, h, Bool.not_false, if_true]
  · intro h
    unfold XOnlyPubKey.CheckPayToContract
    simp only [hb, ho, h, Bool.not_true]
    rfl

/-- C14, with the sample primitives: the key `ff 00..00` does not parse and both
operations return false; the key `01 00..00` parses and the results are those of the
primitives. -/
theorem xonly_operations_fail_closed_witness :
    (((sampleXOnly.xonly_pubkey_parse none (0xff :: List.replicate 31 0)).1 = false →
      XOnlyPubKey.VerifySchnorr sampleXOnly none ⟨0xff :: List.replicate 31 0⟩
        (List.replicate 32 7) (List.replicate 64 7) = some false) ∧
    ((sampleXOnly.xonly_pubkey_parse none (0xff :: List.replicate 31 0)).1 = true →
      XOnlyPubKey.VerifySchnorr sampleXOnly none ⟨0xff :: List.replicate 31 0⟩
        (List.replicate 32 7) (List.replicate 64 7)
        = some (sampleXOnly.schnorrsig_verify none (List.replicate 64 7) (List.replicate 32 7)
            (sampleXOnly.xonly_pubkey_parse none (0xff :: List.replicate 31 0)).2)) ∧
    ((sampleXOnly.xonly_pubkey_parse none (0xff :: List.replicate 31 0)).1 = false →
      XOnlyPubKey.CheckPayToContract sampleXOnly none ⟨0x01 :: List.replicate 31 0⟩
        ⟨0xff :: List.replicate 31 0⟩ (List.replicate 32 9) false = false) ∧
    ((sampleXOnly.xonly_pubkey_parse none (0xff :: List.replicate 31 0)).1 = true →
      XOnlyPubKey.CheckPayToContract sampleXOnly none ⟨0x01 :: List.replicate 31 0⟩
        ⟨0xff :: List.replicate 31 0⟩ (List.replicate 32 9) false
        = sampleXOnly.xonly_pubkey_tweak_add_check none (0x01 :: List.replicate 31 0) false
            (sampleXOnly.xonly_pubkey_parse none (0xff :: List.replicate 31 0)).2
            (List.replicate 32 9))) ∧
    XOnlyPubKey.VerifySchnorr sampleXOnly none ⟨0xff :: List.replicate 31 0⟩
        (List.replicate 32 7) (List.replicate 64 7) = some false ∧
    XOnlyPubKey.VerifySchnorr sampleXOnly none ⟨0x01 :: List.replicate 31 0⟩
        (List.replicate 32 7) (List.replicate 64 7) = some true ∧
    XOnlyPubKey.CheckPayToContract sampleXOnly none ⟨0x01 :: List.replicate 31 0⟩
        ⟨0xff :: List.replicate 31 0⟩ (List.replicate 32 9) false = false ∧
    XOnlyPubKey.CheckPayToContract sampleXOnly none ⟨0x01 :: List.replicate 31 0⟩
        ⟨0x01 :: List.replicate 31 0⟩ (List.replicate 32 9) false = true :=
  ⟨xonly_operations_fail_closed sampleXOnly none (0xff :: List.replicate 31 0)
      (0x01 :: List.replicate 31 0) (0xff :: List.replicate 31 0) (List.replicate 32 7)
      (List.replicate 64 7) (List.replicate 32 9) false ⟨0xff :: List.replicate 31 0⟩
      ⟨0x01 :: List.replicate 31 0⟩ ⟨0xff :: List.replicate 31 0⟩ (by decide) (by decide)
      (by decide) (by decide),
    by decide!, by decide!, by decide!, by decide!⟩

/-! ### The context guard -/

theorem construct_first {κ : Type} (c : κ) :
    ECCVerifyHandle.construct (some c) (⟨0, none⟩ : VerifyState κ)
      = .ok (⟨1, some c⟩, [.create c]) := by
  simp [ECCVerifyHandle.construct, intMax]

theorem construct_next {κ : Type} (c : κ) (n : Int) (h : Option κ) (hn : 0 < n)
    (hmax : n < intMax) :
    ECCVerifyHandle.construct (some c) (⟨n, h⟩ : VerifyState κ) = .ok (⟨n + 1, h⟩, []) := by
  have h0 : ¬ (n = 0) := by omega
  have h1 : ¬ (n = intMax) := by omega
  simp [ECCVerifyHandle.construct, h0, h1]

theorem construct_overflow {κ : Type} (c : κ) (h : Option κ) :
    ECCVerifyHandle.construct (some c) (⟨intMax, h⟩ : VerifyState κ)
      = .error .intOverflow := by
  have h0 : ¬ (intMax = 0) := by unfold intMax; omega
  simp [ECCVerifyHandle.construct, h0]

theorem destruct_last {κ : Type} (c : κ) :
    ECCVerifyHandle.destruct (⟨1, some c⟩ : VerifyState κ)
      = .ok (⟨0, none⟩, [.destroy c]) := by
  simp [ECCVerifyHandle.destruct, intMin]

theorem destruct_other {κ : Type} (n : Int) (h : Option κ) (hn : 1 < n) :
    ECCVerifyHandle.destruct (⟨n, h⟩ : VerifyState κ) = .ok (⟨n - 1, h⟩, []) := by
  have h0 : ¬ (n = intMin) := by unfold intMin; omega
  have h1 : ¬ (n - 1 = 0) := by omega
  simp [ECCVerifyHandle.destruct, h0, h1]

/-- The invariant of the guard along a run from any state that satisfies it. -/
theorem runGuards_invariant {κ : Type} (c : κ) (ops : List GuardOp) :
    ∀ (n : Int) (h : Option κ), ((n = 0 ∧ h = none) ∨ (0 < n ∧ h = some c)) →
      wellNested n ops = true → withinInt n ops = true →
      ∃ s, runGuards (some c) ⟨n, h⟩ ops = .ok (s, expectedCalls c n ops) ∧
        s.refcount = liveGuards n ops ∧
        ((s.refcount = 0 ∧ s.secp256k1_context_verify = none) ∨
         (0 < s.refcount ∧ s.secp256k1_context_verify = some c)) := by
  induction ops with
  | nil =>
    intro n h hinv _ _
    exact ⟨⟨n, h⟩, rfl, rfl, hinv⟩
  | cons op ops ih =>
    intro n h hinv hwn hwi
    cases op with
    | construct =>
      simp only [wellNested] at hwn
      simp only [withinInt, Bool.and_eq_true, decide_eq_true_eq] at hwi
      rcases hinv with ⟨h0, hh⟩ | ⟨hpos, hh⟩
      · subst h0 hh
        obtain ⟨s, hrun, hcount, hs⟩ := ih (0 + 1) (some c) (Or.inr ⟨by omega, rfl⟩) hwn hwi.2
        refine ⟨s, ?_, hcount, hs⟩
        simp only [runGuards, construct_first, expectedCalls, if_true]
        simp only [zero_add] at hrun
        simp only [zero_add, hrun, List.singleton_append]
      · subst hh
        obtain ⟨s, hrun, hcount, hs⟩ := ih (n + 1) (some c) (Or.inr ⟨by omega, rfl⟩) hwn hwi.2
        refine ⟨s, ?_, hcount, hs⟩
        have h0 : ¬ (n = 0) := by omega
        simp only [runGuards, construct_next c n (some c) hpos hwi.1, expectedCalls, h0,
          if_false, hrun, List.nil_append]
    | destruct =>
      simp only [wellNested, Bool.and_eq_true, decide_eq_true_eq] at hwn
      simp only [withinInt] at hwi
      rcases hinv with ⟨h0, _⟩ | ⟨hpos, hh⟩
      · omega
      · subst hh
        by_cases h1 : n = 1
        · subst h1
          obtain ⟨s, hrun, hcount, hs⟩ := ih (1 - 1) none (Or.inl ⟨by omega, rfl⟩) hwn.2 hwi
          refine ⟨s, ?_, hcount, hs⟩
          simp only [runGuards, destruct_last, expectedCalls, if_true]
          simp only [sub_self] at hrun
          simp only [sub_self, hrun, List.singleton_append]
        · obtain ⟨s, hrun, hcount, hs⟩ := ih (n - 1) (some c) (Or.inr ⟨by omega, rfl⟩) hwn.2 hwi
          refine ⟨s, ?_, hcount, hs⟩
          simp only [runGuards, destruct_other n (some c) (by omega), expectedCalls, h1,
            if_false, hrun, List.nil_append]

theorem wellNested_constructions (m : Nat) (n : Int) :
    wellNested n (List.replicate m GuardOp.construct) = true := by
  induction m generalizing n with
  | zero => rfl
  | succ m ih => rw [List.replicate_succ, wellNested]; exact ih (n + 1)

theorem runGuards_constructions_overflow {κ : Type} (c : κ) (m : Nat) :
    ∀ n : Int, 0 < n → n ≤ intMax → intMax < n + m →
      runGuards (some c) ⟨n, some c⟩ (List.replicate m GuardOp.construct)
        = .error .intOverflow := by
  induction m with
  | zero => intro n _ h1 h2; simp at h2; omega
  | succ m ih =>
    intro n hpos hle hgt
    rw [List.replicate_succ]
    by_cases hmax : n = intMax
    · subst hmax
      simp only [runGuards, construct_overflow]
    · have hlt : n < intMax := by omega
      have := ih (n + 1) (by omega) (by omega) (by push_cast at hgt ⊢; omega)
      simp only [runGuards, construct_next c n (some c) hpos hlt, this]

theorem runGuards_first_overflow {κ : Type} (c : κ) (ops : List GuardOp)
    (h : runGuards (some c) ⟨1, some c⟩ ops = .error .intOverflow) :
    runGuards (some c) ⟨0, none⟩ (GuardOp.construct :: ops) = .error .intOverflow := by
  simp only [runGuards, construct_first, h]

/-- C13, as stated, fails: 2147483648 constructions in a row contain no destruction at
all, and the last of them overflows the `int` counter `refcount`, which cannot hold the
number of live guards. -/
theorem guard_refcount_counterexample :
    wellNested 0 (GuardOp.construct :: List.replicate 2147483647 GuardOp.construct) = true ∧
    runGuards (some ()) ⟨0, none⟩
        (GuardOp.construct :: List.replicate 2147483647 GuardOp.construct)
      = .error .intOverflow := by
  constructor
  · rw [wellNested]; exact wellNested_constructions _ _
  · exact runGuards_first_overflow () _
      (runGuards_constructions_overflow () 2147483647 1 (by omega)
        (by unfold intMax; omega) (by unfold intMax; omega))

/-- C13, amended. From the state `(0, null)` and with a context creation that succeeds
(it returns the handle `c`), after every sequence of constructions and destructions of
guards in which no destruction happens without a live guard and at most `intMax` guards
are live at any time, no assertion has failed, `refcount` is the number of live guards,
the handle is non-null exactly when `refcount > 0`, and the library calls made are
exactly a creation at each transition from 0 to 1 and a destruction at each transition
from 1 to 0. -/
theorem guard_refcount_invariant {κ : Type} (c : κ) (ops : List GuardOp)
    (hnested : wellNested 0 ops = true) (hint : withinInt 0 ops = true) :
    ∃ s, runGuards (some c) ⟨0, none⟩ ops = .ok (s, expectedCalls c 0 ops) ∧
      s.refcount = liveGuards 0 ops ∧ 0 ≤ s.refcount ∧
      (s.secp256k1_context_verify.isSome = true ↔ 0 < s.refcount) := by
  obtain ⟨s, hrun, hcount, hs⟩ :=
    runGuards_invariant c ops 0 none (Or.inl ⟨rfl, rfl⟩) hnested hint
  refine ⟨s, hrun, hcount, ?_, ?_⟩
  · rcases hs with ⟨h0, _⟩ | ⟨hpos, _⟩ <;> omega
  · rcases hs with ⟨h0, hn⟩ | ⟨hpos, hsome⟩
    · rw [hn, h0]; simp
    · rw [hsome]; simp [hpos]

/-- C13 amended, on construct, construct, destruct, destruct, construct: one guard is
live at the end, and the context was created, destroyed and created again. -/
theorem guard_refcount_invariant_witness :
    (∃ s, runGuards (some ()) ⟨0, none⟩
        [.construct, .construct, .destruct, .destruct, .construct]
        = .ok (s, expectedCalls () 0 [.construct, .construct, .destruct, .destruct, .construct]) ∧
      s.refcount = liveGuards 0 [.construct, .construct, .destruct, .destruct, .construct] ∧
      0 ≤ s.refcount ∧
      (s.secp256k1_context_verify.isSome = true ↔ 0 < s.refcount)) ∧
    runGuards (some ()) ⟨0, none⟩ [.construct, .construct, .destruct, .destruct, .construct]
      = .ok (⟨1, some ()⟩, [.create (), .destroy (), .create ()]) :=
  ⟨guard_refcount_invariant () [.construct, .construct, .destruct, .destruct, .construct]
    (by decide) (by decide), by decide⟩

end PubKey
